import Mathlib

/-!
Verification development for the website link crawler (`crawler.js`).

The crawler is embedded shallowly: JS strings become `List Char`, the Redis
result store becomes a `Store` structure of maps, the network becomes an
`Oracle` function from URLs to fetch outcomes, and the concurrent
queue/worker scheduler becomes a small-step system driven by an explicit
schedule (a list of `Choice`s), one step per synchronous segment of a task
(the segments between `await` points in the JS source).

Modelling conventions, used throughout:
* JS strings are `List Char` (`JSStr`).  String literals are written
  `"...".toList`.
* `new URL(...)` / `url-parse` are modelled by `parseURL` below, which
  covers absolute `scheme://host...` URLs.  WHATWG percent-encoding,
  default-port dropping and IDNA are not modelled; scheme and host are
  case-folded with ASCII `Char.toLower`, matching WHATWG behaviour on
  ASCII input.  `searchParams` is modelled by raw splitting of the query
  on `&`; WHATWG re-encoding of individual parameters (`a` ↦ `a=`,
  `%20` ↦ `+`) is not modelled.  The WHATWG behaviours that the claims
  hinge on are modelled exactly: an empty path serialises as `/`, and a
  query that becomes empty after deleting parameters is dropped
  entirely (the `?` disappears).
* The base64 Redis key `Buffer.from(url).toString('base64')` is an
  injective encoding of the URL, so store maps are keyed by the URL
  string itself.
-/

namespace Crawler

abbrev JSStr := List Char

/-- Model of `str.startsWith(p)` on JS strings. -/
def jsStartsWith (s p : JSStr) : Bool := p.isPrefixOf s

/-- Model of a JS regex test for a trailing occurrence, `/x$/`. -/
def jsEndsWith (s p : JSStr) : Bool := p.isSuffixOf s

/-- Decimal representation of a `Nat`, modelling JS `String(n)` for
non-negative integers. -/
def natToJS (n : Nat) : JSStr := (Nat.repr n).toList

/-- Split a string at the first occurrence of `sep` (a non-empty separator
sequence), returning the parts before and after it, or `none` when `sep`
does not occur. -/
def splitOnce (sep : JSStr) : JSStr → Option (JSStr × JSStr)
  | [] => none
  | c :: cs =>
    if sep.isPrefixOf (c :: cs) then some ([], (c :: cs).drop sep.length)
    else
      match splitOnce sep cs with
      | some (pre, post) => some (c :: pre, post)
      | none => none

/-- Split a string on every occurrence of the character `sep`, modelling
JS `str.split(sep)`: the result is always non-empty and splitting the
empty string yields `[[]]`. -/
def splitChar (sep : Char) : JSStr → List JSStr
  | [] => [[]]
  | c :: cs =>
    if c = sep then [] :: splitChar sep cs
    else
      match splitChar sep cs with
      | [] => [[c]]
      | p :: ps => (c :: p) :: ps

/-- Join a list of strings with the character `sep`, modelling
JS `parts.join(sep)`. -/
def joinChar (sep : Char) : List JSStr → JSStr
  | [] => []
  | [p] => p
  | p :: ps => p ++ sep :: joinChar sep ps

/-- Model of `Array.prototype.includes` / set-style membership used for
Redis `sAdd`: append the element only when it is not present yet. -/
def addUnique (l : List JSStr) (x : JSStr) : List JSStr :=
  if x ∈ l then l else l ++ [x]

/-- Lookup in an association list of string fields. -/
def assocGet {α : Type} (l : List (JSStr × α)) (k : JSStr) : Option α :=
  match l with
  | [] => none
  | (k₀, v) :: rest => if k₀ = k then some v else assocGet rest k

/-- Overwrite-or-append update of an association list, modelling setting
one field of a Redis hash. -/
def assocSet {α : Type} (l : List (JSStr × α)) (k : JSStr) (v : α) :
    List (JSStr × α) :=
  match l with
  | [] => [(k, v)]
  | (k₀, v₀) :: rest =>
    if k₀ = k then (k₀, v) :: rest else (k₀, v₀) :: assocSet rest k v

/-- Model of JS `String.prototype.trim` (ASCII whitespace only). -/
def jsTrim (s : JSStr) : JSStr :=
  ((s.dropWhile Char.isWhitespace).reverse.dropWhile Char.isWhitespace).reverse

/-- Characters allowed in a URL scheme (RFC 3986
`ALPHA / DIGIT / + / - / .`, written on code points for easier
arithmetic reasoning). -/
def isSchemeChar (c : Char) : Bool :=
  (65 ≤ c.toNat ∧ c.toNat ≤ 90) ∨ (97 ≤ c.toNat ∧ c.toNat ≤ 122) ∨
    (48 ≤ c.toNat ∧ c.toNat ≤ 57) ∨ c = '+' ∨ c = '-' ∨ c = '.'

/-- Parsed absolute URL, as produced by the model of `new URL(...)`:
scheme and host are lower-cased, the path always starts with `/`
(an empty path parses as `/`), and `query` is the part after the first
`?` when one is present. -/
structure UrlParts where
  scheme : JSStr
  host : JSStr
  path : JSStr
  query : Option JSStr
  deriving DecidableEq

/-- Model of `new URL(s)` for absolute URLs: split the string at the first
`://`, take the host up to the first `/` or `?`, then split path and
query at the first `?`.  Parsing fails (`none`, modelling a thrown
`TypeError`) when there is no `://`, the scheme is empty or contains a
character outside `isSchemeChar`, or the host is empty. -/
def parseURL (s : JSStr) : Option UrlParts :=
  match splitOnce ("://".toList) s with
  | none => none
  | some (schemeRaw, rest) =>
    if schemeRaw = [] then none
    else if ¬ schemeRaw.all isSchemeChar then none
    else
      let host := rest.takeWhile fun c => ¬ (c = '/' ∨ c = '?')
      if host = [] then none
      else
        let afterHost := rest.dropWhile fun c => ¬ (c = '/' ∨ c = '?')
        let path0 := afterHost.takeWhile fun c => ¬ c = '?'
        let path := if path0 = [] then ['/'] else path0
        let query :=
          match afterHost.dropWhile fun c => ¬ c = '?' with
          | [] => none
          | _ :: qs => some qs
        some ⟨schemeRaw.map Char.toLower, host.map Char.toLower, path, query⟩

/-- Model of `URL.prototype.toString` for the URLs produced by `parseURL`. -/
def serializeURL (p : UrlParts) : JSStr :=
  p.scheme ++ "://".toList ++ p.host ++ p.path ++
    (match p.query with
     | none => []
     | some q => '?' :: q)

/-- The tracking parameters removed by `normalizeUrl`. -/
def utmParams : List JSStr :=
  [("utm_source").toList, ("utm_medium").toList, ("utm_campaign").toList,
   ("utm_term").toList, ("utm_content").toList]

/-- Name of a query parameter: the part before the first `=`. -/
def paramKey (p : JSStr) : JSStr := p.takeWhile fun c => ¬ c = '='

/-- Model of deleting the five `utm_*` parameters through `searchParams`:
parse the query into parameters (splitting on `&` and discarding empty
segments, as the WHATWG parser does), drop the `utm_*` ones, and
re-serialise; when no parameter remains the query disappears
altogether (`none`), which is what makes the `?` vanish from
`toString()`. -/
def deleteUtmQuery (q : JSStr) : Option JSStr :=
  let ps := (splitChar '&' q).filter fun p => ¬ p = []
  let kept := ps.filter fun p => ¬ paramKey p ∈ utmParams
  match kept with
  | [] => none
  | _ => some (joinChar '&' kept)

/-- Apply `deleteUtmQuery` to the query component of a parsed URL. -/
def deleteUtm (p : UrlParts) : UrlParts :=
  { p with query := match p.query with
                    | none => none
                    | some q => deleteUtmQuery q }

/-- Well-formedness of a parsed URL, as guaranteed by `parseURL`: the
scheme is a non-empty lower-case run of scheme characters, the host is
non-empty, lower-case and free of `/` and `?`, and the path is
non-empty, starts with `/` and is free of `?`.  These are exactly the
facts that make serialisation re-parse to the same parts. -/
def ValidParts (p : UrlParts) : Prop :=
  ¬ p.scheme = [] ∧ (∀ c ∈ p.scheme, isSchemeChar c = true) ∧
  p.scheme.map Char.toLower = p.scheme ∧
  ¬ p.host = [] ∧ (∀ c ∈ p.host, ¬ (c = '/' ∨ c = '?')) ∧
  p.host.map Char.toLower = p.host ∧
  ¬ p.path = [] ∧ p.path.head? = some '/' ∧ (∀ c ∈ p.path, ¬ c = '?')

/-- A query already in the shape `deleteUtmQuery` produces: the join of
a non-empty list of non-empty, `&`-free parameters none of which is a
`utm_*` parameter.  Deleting the `utm_*` parameters from such a query
changes nothing. -/
def CleanQuery : Option JSStr → Prop
  | none => True
  | some qs => ∃ kept, ¬ kept = [] ∧
      (∀ pt ∈ kept, ¬ pt = [] ∧ ¬ '&' ∈ pt ∧ ¬ paramKey pt ∈ utmParams) ∧
      qs = joinChar '&' kept

/-- Crawl configuration, from the `config` object built out of environment
variables at the top of the source.  `nowIso` models the value of
`new Date().toISOString()` during the run (the exact timestamp is
irrelevant to every claim). -/
structure Config where
  websiteUrl : JSStr
  maxDepth : Nat
  concurrency : Nat
  skipDataImages : Bool
  excludePatterns : List JSStr
  nowIso : JSStr

/-- Hostname of a URL as reported by `url-parse` (`.hostname`, without the
port); the empty string when the URL does not parse. -/
def urlParseHostname (s : JSStr) : JSStr :=
  match parseURL s with
  | some p => p.host.takeWhile fun c => ¬ c = ':'
  | none => []

/-- Model of the global `baseDomain = new URLParse(config.websiteUrl).hostname`. -/
def baseDomain (cfg : Config) : JSStr := urlParseHostname cfg.websiteUrl

/-- Model of the global `baseProtocol = new URLParse(config.websiteUrl).protocol`
(the scheme including the trailing colon, e.g. `https:`). -/
def baseProtocol (cfg : Config) : JSStr :=
  match parseURL cfg.websiteUrl with
  | some p => p.scheme ++ [':']
  | none => []

/-- Model of `isInboundLink`: the hostname of the URL equals the hostname of the seed. -/
def isInboundLink (cfg : Config) (url : JSStr) : Bool :=
  urlParseHostname url = baseDomain cfg

/-- Model of `normalizeUrl(url, baseUrl)` from the source:
1. a protocol-relative `//...` URL gets the literal prefix `https:`;
2. a root-relative `/...` URL gets the scheme of the seed and host prepended;
3. any other URL not starting with `http` is joined to the directory of
   `baseUrl` (`baseUrl.split('/').slice(0, -1).join('/')`);
4. one trailing slash is removed (`replace(/\/$/, '')`);
5. the fragment is removed (`split('#')[0]`);
6. the URL is re-parsed and the `utm_*` query parameters are deleted,
   re-serialising through `toString()`; when parsing fails the URL from
   step 5 is kept unchanged (the `catch` branch). -/
def normalizeUrl (cfg : Config) (url0 baseUrl : JSStr) : JSStr :=
  let u1 := if jsStartsWith url0 ("//".toList)
            then ("https:".toList) ++ url0 else url0
  let u2 :=
    if jsStartsWith u1 ("/".toList) then
      baseProtocol cfg ++ ("//".toList) ++ baseDomain cfg ++ u1
    else if ¬ jsStartsWith u1 ("http".toList) then
      joinChar '/' ((splitChar '/' baseUrl).dropLast) ++ '/' :: u1
    else u1
  let u3 := if jsEndsWith u2 ("/".toList) then u2.dropLast else u2
  let u4 := u3.takeWhile fun c => ¬ c = '#'
  match parseURL u4 with
  | some p => serializeURL (deleteUtm p)
  | none => u4

/-- Model of `fixProtocolRelativeUrl`. -/
def fixProtocolRelativeUrl (url : JSStr) : JSStr :=
  if jsStartsWith url ("//".toList) then ("https:".toList) ++ url else url

/-- Boolean test for a contiguous occurrence of `pat` inside a string. -/
def containsSeq (pat : JSStr) : JSStr → Bool
  | [] => pat.isPrefixOf []
  | c :: cs => pat.isPrefixOf (c :: cs) || containsSeq pat cs

/-- Test for the JS regex `/\.ext($|\?)/i`: the lower-cased string ends
with `.ext` or contains `.ext?`. -/
def extTest (ext : JSStr) (url : JSStr) : Bool :=
  let l := url.map Char.toLower
  jsEndsWith l ('.' :: ext) || containsSeq ('.' :: ext ++ ['?']) l

/-- The image extensions of `getAssetType`. -/
def imageExts : List JSStr :=
  [("jpg").toList, ("jpeg").toList, ("png").toList, ("gif").toList,
   ("svg").toList, ("webp").toList, ("ico").toList]

/-- The `ASSET_TYPES` constants. -/
def atLink : JSStr := ("link").toList
def atCss : JSStr := ("css").toList
def atScript : JSStr := ("script").toList
def atImage : JSStr := ("image").toList
def atOther : JSStr := ("other").toList

/-- Model of `getAssetType(url, tag)`. -/
def getAssetType (url tag : JSStr) : JSStr :=
  if tag = ("a").toList then atLink
  else if tag = ("link").toList ∧ extTest (("css").toList) url then atCss
  else if tag = ("script").toList then atScript
  else if tag = ("img").toList then atImage
  else if imageExts.any (fun e => extTest e url) then atImage
  else if extTest (("css").toList) url then atCss
  else if extTest (("js").toList) url then atScript
  else atOther

/-- Model of `isUrlExcluded(url)`: with a non-empty pattern list, parse
the URL and test whether its pathname starts with one of the patterns;
an unparseable URL is not excluded (the `catch` branch). -/
def isUrlExcluded (cfg : Config) (url : JSStr) : Bool :=
  if cfg.excludePatterns = [] then false
  else
    match parseURL url with
    | some p => cfg.excludePatterns.any fun pat => pat.isPrefixOf p.path
    | none => false

/-- Model of `shouldCrawlUrl(url, referrer, depth, sourcePages)` (only
`url` and `depth` are consulted). -/
def shouldCrawlUrl (cfg : Config) (url : JSStr) (depth : Nat) : Bool :=
  if depth > cfg.maxDepth then false
  else if cfg.skipDataImages ∧ jsStartsWith url (("data:image").toList) then false
  else if isUrlExcluded cfg url then false
  else true

/-- Value of a field in the `data` object handed to `storeResult`.  The
source passes strings, numbers, `null`, and (only via the dead
`data.sourcePages` array branch) arrays. -/
inductive JVal where
  | str (s : JSStr)
  | num (n : Nat)
  | null
  | arr (xs : List JSStr)
  deriving DecidableEq

/-- Model of JS `String(value)` as used on `storeResult` field values
(`null`/`undefined` are handled before the conversion; an array joins
its elements with commas). -/
def jvalToStr : JVal → JSStr
  | .str s => s
  | .num n => natToJS n
  | .null => []
  | .arr xs => joinChar ',' xs

/-- The Result Store: the per-URL hashes, the `all_urls` set, the
`type:<t>` and `status:<s>` index sets, and the `sources:<url>`
provenance sets.  Keys are the URL strings themselves, standing for
their injective base64 encodings. -/
structure Store where
  hashes : JSStr → Option (List (JSStr × JSStr))
  allUrls : List JSStr
  typeSets : JSStr → List JSStr
  statusSets : JSStr → List JSStr
  sources : JSStr → List JSStr

/-- The store at the start of a run. -/
def emptyStore : Store :=
  ⟨fun _ => none, [], fun _ => [], fun _ => [], fun _ => []⟩

/-- Convenience: one field of a stored per-URL hash. -/
def hashField (st : Store) (url field : JSStr) : Option JSStr :=
  (st.hashes url).bind fun l => assocGet l field

/-- Model of `storeResult(url, data)`:
fix a protocol-relative URL, default a missing/`null` status to `0`,
stringify every field (`null`/`undefined` become the empty string) and
merge the fields into the hash of the URL (`hSet`), add the URL to
`all_urls`, add a truthy `data.referrer` to the provenance set, add the
entries of an array-valued `data.sourcePages` to the provenance set
(the callers always pass a JSON *string*, so this branch never fires),
add the URL to the `type:` index when `data.type` is truthy, and to the
`status:` index of the defaulted status. -/
def storeResult (st : Store) (url0 : JSStr) (data0 : List (JSStr × JVal)) :
    Store :=
  let url := fixProtocolRelativeUrl url0
  let data :=
    match assocGet data0 (("status").toList) with
    | none => assocSet data0 (("status").toList) (.num 0)
    | some JVal.null => assocSet data0 (("status").toList) (.num 0)
    | some _ => data0
  let processed := data.map fun fv =>
    (fv.1, match fv.2 with
           | .null => []
           | v => jvalToStr v)
  let newHash := processed.foldl (fun h fv => assocSet h fv.1 fv.2)
    ((st.hashes url).getD [])
  let st1 : Store :=
    { st with
      hashes := fun k => if k = url then some newHash else st.hashes k
      allUrls := addUnique st.allUrls url }
  let st2 : Store :=
    match assocGet data (("referrer").toList) with
    | some (JVal.str r) =>
      if r = [] then st1
      else { st1 with
             sources := fun k => if k = url then addUnique (st1.sources k) r
                                 else st1.sources k }
    | _ => st1
  let st3 : Store :=
    match assocGet data (("sourcePages").toList) with
    | some (JVal.arr xs) =>
      { st2 with
        sources := fun k =>
          if k = url then xs.foldl (fun acc x => if x = [] then acc else addUnique acc x)
                          (st2.sources k)
          else st2.sources k }
    | _ => st2
  let st4 : Store :=
    match assocGet data (("type").toList) with
    | some (JVal.str t) =>
      if t = [] then st3
      else { st3 with
             typeSets := fun k => if k = t then addUnique (st3.typeSets k) url
                                  else st3.typeSets k }
    | _ => st3
  let statusStr := jvalToStr ((assocGet data (("status").toList)).getD (.num 0))
  { st4 with
    statusSets := fun k => if k = statusStr then addUnique (st4.statusSets k) url
                           else st4.statusSets k }

/-- A reference to be stored/queued, as produced by `extractLinks`
(missing `text`/`alt` become the empty string, matching the
`link.text || ''` reads downstream; the unused `rel` field is
omitted). -/
structure Link where
  url : JSStr
  tag : JSStr
  text : JSStr
  alt : JSStr
  deriving DecidableEq

/-- An HTML document as seen through the four cheerio selector passes of
`extractLinks`: anchors (`href`, text), stylesheet links (`href`),
scripts (`src`), images (`src`, `alt`). -/
structure Document where
  anchors : List (Option JSStr × JSStr)
  stylesheets : List (Option JSStr)
  scripts : List (Option JSStr)
  images : List (Option JSStr × Option JSStr)
  deriving DecidableEq

/-- Model of `extractLinks($, baseUrl)`: anchors whose `href` is present
and does not start with `javascript:`, `mailto:`, `tel:` or
`data:image`; stylesheet links and scripts with a present `href`/`src`;
images whose `src` is present and is not a `data:image` URL.  Every
reference is normalised with `normalizeUrl`. -/
def extractLinks (cfg : Config) (doc : Document) (baseUrl : JSStr) :
    List Link :=
  (doc.anchors.filterMap fun ht =>
    match ht.1 with
    | none => none
    | some href =>
      if href = [] then none
      else if jsStartsWith href (("javascript:").toList)
           || jsStartsWith href (("mailto:").toList)
           || jsStartsWith href (("tel:").toList)
           || jsStartsWith href (("data:image").toList) then none
      else some ⟨normalizeUrl cfg href baseUrl, ("a").toList, jsTrim ht.2, []⟩)
  ++ (doc.stylesheets.filterMap fun h =>
    match h with
    | none => none
    | some href =>
      if href = [] then none
      else some ⟨normalizeUrl cfg href baseUrl, ("link").toList, [], []⟩)
  ++ (doc.scripts.filterMap fun h =>
    match h with
    | none => none
    | some src =>
      if src = [] then none
      else some ⟨normalizeUrl cfg src baseUrl, ("script").toList, [], []⟩)
  ++ (doc.images.filterMap fun sa =>
    match sa.1 with
    | none => none
    | some src =>
      if src = [] then none
      else if jsStartsWith src (("data:image").toList) then none
      else some ⟨normalizeUrl cfg src baseUrl, ("img").toList, [],
                 sa.2.getD []⟩)

/-- What the HTTP client reports for a successful request (any status
code; `validateStatus: false` means non-2xx is not an exception).
`doc` is the parsed body, consulted only when the response is inbound
HTML within depth. -/
structure FetchResp where
  status : Nat
  contentType : JSStr
  finalUrl : JSStr
  doc : Document
  deriving DecidableEq

/-- Outcome of a fetch: a response, or a thrown exception carrying
`error.response?.status` and `error.message`. -/
inductive FetchOutcome where
  | ok (r : FetchResp)
  | exn (respStatus : Option Nat) (message : JSStr)
  deriving DecidableEq

/-- The network, as a deterministic map from URLs to outcomes.  The
HEAD-then-GET escalation of the source (a HEAD request whose response
advertises HTML triggers one full GET of the same URL to obtain the
body, spec §4.4) is folded into one logical fetch: the oracle returns
the status/headers and the parsed document of the body together. -/
def Oracle := JSStr → FetchOutcome

/-- Model of `error.response?.status || 0`. -/
def jsOrNat (a : Option Nat) (b : Nat) : Nat :=
  match a with
  | some n => if n = 0 then b else n
  | none => b

/-- Model of `contentType.includes('text/html')`. -/
def isHtmlCT (ct : JSStr) : Bool := containsSeq (("text/html").toList) ct

/-- A work-queue entry, `{url, referrer, depth, sourcePages}`. -/
structure FrontierItem where
  url : JSStr
  referrer : JSStr
  depth : Nat
  sourcePages : List JSStr
  deriving DecidableEq

/-- Model of `JSON.stringify` on an array of strings (URL strings are
assumed to contain no quote or backslash, so no escaping is modelled). -/
def jsonArr (xs : List JSStr) : JSStr :=
  '[' :: joinChar ',' (xs.map fun x => '"' :: (x ++ ['"'])) ++ [']']

/-- Model of the already-visited branch of `checkUrl` (lines 422-429):
merge the referrer into the provenance set of the URL via `safeSetAdd`,
which ignores a falsy (empty) value. -/
def mergeProvenance (st : Store) (url referrer : JSStr) : Store :=
  if referrer = [] then st
  else { st with
         sources := fun k => if k = url then addUnique (st.sources k) referrer
                             else st.sources k }

/-- Model of one iteration of the extraction loop of `checkUrl`
(lines 520-554): decide whether to enqueue the link (inbound links at
`depth + 1`, outbound links pinned to `maxDepth`, both only when not
yet visited), then write its stub record (`checkedAt: null`).  The
visited set is not modified inside the loop, so it is a plain
parameter. -/
def processExtractedLink (cfg : Config) (pageUrl : JSStr) (depth : Nat)
    (sourcePages : List JSStr) (visited : List JSStr)
    (acc : List FrontierItem × Store) (link : Link) :
    List FrontierItem × Store :=
  let assetType := getAssetType link.url link.tag
  let inbound := isInboundLink cfg link.url
  let items :=
    if inbound ∧ ¬ link.url ∈ visited then
      acc.1 ++ [⟨link.url, pageUrl, depth + 1, sourcePages ++ [pageUrl]⟩]
    else if ¬ inbound ∧ ¬ link.url ∈ visited then
      acc.1 ++ [⟨link.url, pageUrl, cfg.maxDepth, sourcePages ++ [pageUrl]⟩]
    else acc.1
  let store := storeResult acc.2 link.url
    [(("url").toList, .str link.url),
     (("referrer").toList, .str pageUrl),
     (("type").toList, .str assetType),
     (("isInbound").toList, .num (if inbound then 1 else 0)),
     (("tag").toList, .str link.tag),
     (("text").toList, .str link.text),
     (("alt").toList, .str link.alt),
     (("checkedAt").toList, .null),
     (("sourcePages").toList, .str (jsonArr (sourcePages ++ [pageUrl])))]
  (items, store)

/-- The synthetic record stored for a `data:image` URL (lines 439-453). -/
def dataImageRecord (cfg : Config) (url referrer : JSStr) (depth : Nat)
    (sourcePages : List JSStr) : List (JSStr × JVal) :=
  [(("url").toList, .str (url.take 100 ++ ("... (truncated)").toList)),
   (("originalUrl").toList, .str url),
   (("status").toList, .num 200),
   (("contentType").toList, .str (("image/embedded").toList)),
   (("finalUrl").toList, .str url),
   (("isRedirect").toList, .num 0),
   (("referrer").toList, .str referrer),
   (("depth").toList, .num depth),
   (("type").toList, .str atImage),
   (("checkedAt").toList, .str cfg.nowIso),
   (("isInbound").toList, .num 1),
   (("isDataImage").toList, .num 1),
   (("sourcePages").toList, .str (jsonArr sourcePages))]

/-- The record stored for a completed fetch (lines 501-513). -/
def responseRecord (cfg : Config) (url referrer : JSStr) (depth : Nat)
    (sourcePages : List JSStr) (r : FetchResp) : List (JSStr × JVal) :=
  let finalUrl := if r.finalUrl = [] then url else r.finalUrl
  [(("url").toList, .str url),
   (("status").toList, .num r.status),
   (("contentType").toList, .str r.contentType),
   (("finalUrl").toList, .str finalUrl),
   (("isRedirect").toList, .num (if finalUrl = url then 0 else 1)),
   (("referrer").toList, .str referrer),
   (("depth").toList, .num depth),
   (("type").toList,
    .str (if isHtmlCT r.contentType then atLink else getAssetType url [])),
   (("checkedAt").toList, .str cfg.nowIso),
   (("isInbound").toList, .num (if isInboundLink cfg url then 1 else 0)),
   (("sourcePages").toList, .str (jsonArr sourcePages))]

/-- The record stored when the fetch throws (lines 559-569). -/
def errorRecord (cfg : Config) (url referrer : JSStr) (depth : Nat)
    (sourcePages : List JSStr) (respStatus : Option Nat) (msg : JSStr) :
    List (JSStr × JVal) :=
  [(("url").toList, .str url),
   (("status").toList, .num (jsOrNat respStatus 0)),
   (("error").toList, .str msg),
   (("referrer").toList, .str referrer),
   (("depth").toList, .num depth),
   (("type").toList, .str (getAssetType url [])),
   (("checkedAt").toList, .str cfg.nowIso),
   (("isInbound").toList, .num (if isInboundLink cfg url then 1 else 0)),
   (("sourcePages").toList, .str (jsonArr sourcePages))]

/-- Model of the body of `checkUrl` past the claim of the visited set
(lines 433-572): the (unreachable when admission already rejected
data-image URLs) synthetic data-image record, then the fetch and its
handling — store the result record; when the response is inbound HTML
within depth, extract the links and run the extraction loop; on a
fetch exception store the error record.  Returns the updated store,
the frontier items pushed, and the list of URLs actually fetched over
the network (empty for the synthetic data-image record). -/
def fetchPhase (cfg : Config) (orc : Oracle) (url referrer : JSStr)
    (depth : Nat) (sourcePages : List JSStr) (visited : List JSStr)
    (store : Store) : Store × List FrontierItem × List JSStr :=
  if jsStartsWith url (("data:image").toList) ∧ cfg.skipDataImages then
    (storeResult store url (dataImageRecord cfg url referrer depth sourcePages),
     [], [])
  else
    match orc url with
    | .ok r =>
      let store1 := storeResult store url
        (responseRecord cfg url referrer depth sourcePages r)
      if isHtmlCT r.contentType ∧ isInboundLink cfg url
          ∧ depth < cfg.maxDepth then
        let links := extractLinks cfg r.doc url
        let out := links.foldl
          (processExtractedLink cfg url depth sourcePages visited) ([], store1)
        (out.2, out.1, [url])
      else (store1, [], [url])
    | .exn respStatus msg =>
      (storeResult store url
        (errorRecord cfg url referrer depth sourcePages respStatus msg),
       [], [url])

/-- In-process crawler state as seen by one sequential `checkUrl`
call: the visited set, the work queue, the result store, and a log of
the URLs fetched over the network so far (the log is a history
variable recording each `axios` dispatch; it has no counterpart in
the JS state but only appends where the source performs a request). -/
structure CrawlState where
  visited : List JSStr
  queue : List FrontierItem
  store : Store
  fetchLog : List JSStr

/-- Model of one complete `checkUrl(url, referrer, depth, sourcePages)`
call, run in isolation: admission check, provenance merge for an
already-visited URL, otherwise claim the URL in the visited set and
run `fetchPhase`.  The visited set passed to the extraction loop is
the one that already contains the claimed URL, exactly as in the
source (the `add` at line 431 precedes the loop). -/
def checkUrl (cfg : Config) (orc : Oracle) (s : CrawlState)
    (item : FrontierItem) : CrawlState :=
  if ¬ shouldCrawlUrl cfg item.url item.depth then s
  else if item.url ∈ s.visited then
    { s with store := mergeProvenance s.store item.url item.referrer }
  else
    let visited1 := s.visited ++ [item.url]
    let out := fetchPhase cfg orc item.url item.referrer item.depth
      item.sourcePages visited1 s.store
    { visited := visited1
      queue := s.queue ++ out.2.1
      store := out.1
      fetchLog := s.fetchLog ++ out.2.2 }

/-- Progress of one in-flight `checkUrl` task, segmented at its `await`
points: `admitting` (about to run the admission/visited segment),
`fetching` (URL claimed, request in flight), `finishing` (`checkUrl`
returned, the `finally` callback not yet run). -/
inductive TaskPhase where
  | admitting
  | fetching
  | finishing
  deriving DecidableEq

/-- An in-flight task: its work item and its phase. -/
structure Task where
  item : FrontierItem
  phase : TaskPhase
  deriving DecidableEq

/-- Whole-scheduler state: the work queue, the in-flight tasks
(`activeTasks` is their number — a task is removed exactly when its
`finally` callback decrements the counter), the visited set, the
store, the fetch log, the number of pending `processQueue` callbacks
(`setTimeout(processQueue, 0)` registrations plus the initial call
from `main`), and how many times `generateCrawlSummary` has run. -/
structure Sys where
  queue : List FrontierItem
  tasks : List Task
  visited : List JSStr
  store : Store
  fetchLog : List JSStr
  pendingPQ : Nat
  summaryCount : Nat

/-- A scheduling decision: run one pending `processQueue` callback, or
let the `i`-th in-flight task execute its next synchronous segment. -/
inductive Choice where
  | pq
  | task (i : Nat)

/-- Replace the `i`-th task (callers guarantee `i` is in range). -/
def setTaskAt (l : List Task) (i : Nat) (t : Task) : List Task :=
  l.take i ++ t :: l.drop (i + 1)

/-- Advance the `i`-th in-flight task by one synchronous segment,
mirroring `checkUrl`:
* `admitting`: run the admission check and the visited-set test; a
  rejected item or an already-visited URL (whose referrer is merged
  into provenance) finishes the call; otherwise the URL is claimed
  (added to the visited set, line 431) and the task proceeds to fetch;
* `fetching`: perform the fetch and all its handling (`fetchPhase`),
  appending discovered frontier items to the queue;
* `finishing`: the `finally` callback — remove the task and register
  one `processQueue` callback. -/
def advanceTask (cfg : Config) (orc : Oracle) (s : Sys) (i : Nat)
    (t : Task) : Sys :=
  match t.phase with
  | .admitting =>
    if ¬ shouldCrawlUrl cfg t.item.url t.item.depth then
      { s with tasks := setTaskAt s.tasks i ⟨t.item, .finishing⟩ }
    else if t.item.url ∈ s.visited then
      { s with
        tasks := setTaskAt s.tasks i ⟨t.item, .finishing⟩
        store := mergeProvenance s.store t.item.url t.item.referrer }
    else
      { s with
        tasks := setTaskAt s.tasks i ⟨t.item, .fetching⟩
        visited := s.visited ++ [t.item.url] }
  | .fetching =>
    let out := fetchPhase cfg orc t.item.url t.item.referrer t.item.depth
      t.item.sourcePages s.visited s.store
    { s with
      tasks := setTaskAt s.tasks i ⟨t.item, .finishing⟩
      store := out.1
      queue := s.queue ++ out.2.1
      fetchLog := s.fetchLog ++ out.2.2 }
  | .finishing =>
    { s with
      tasks := s.tasks.take i ++ s.tasks.drop (i + 1)
      pendingPQ := s.pendingPQ + 1 }

/-- One step of the event loop.  `Choice.pq` runs a pending
`processQueue` callback: when the queue is empty and no task is in
flight it runs `generateCrawlSummary`, otherwise its `while` loop
moves items from the queue into new tasks up to the concurrency limit.
`Choice.task i` advances an in-flight task; a choice that refers to
nothing (no pending callback / no such task) changes nothing. -/
def step (cfg : Config) (orc : Oracle) (s : Sys) : Choice → Sys
  | .pq =>
    if s.pendingPQ = 0 then s
    else
      let s1 := { s with pendingPQ := s.pendingPQ - 1 }
      if s1.queue = [] ∧ s1.tasks = [] then
        { s1 with summaryCount := s1.summaryCount + 1 }
      else
        let n := min (cfg.concurrency - s1.tasks.length) s1.queue.length
        { s1 with
          tasks := s1.tasks ++ (s1.queue.take n).map fun it => ⟨it, .admitting⟩
          queue := s1.queue.drop n }
  | .task i =>
    match s.tasks[i]? with
    | none => s
    | some t => advanceTask cfg orc s i t

/-- The scheduler state right after `main` seeded the queue and called
`processQueue` once. -/
def initSys (cfg : Config) : Sys :=
  { queue := [⟨cfg.websiteUrl, [], 0, []⟩]
    tasks := []
    visited := []
    store := emptyStore
    fetchLog := []
    pendingPQ := 1
    summaryCount := 0 }

/-- Run the event loop under an explicit schedule. -/
def runSys (cfg : Config) (orc : Oracle) (cs : List Choice) : Sys :=
  cs.foldl (step cfg orc) (initSys cfg)

/-- Number of tasks of a task list that are in the fetch phase for the
URL `u` (used by the at-most-once-fetch invariant). -/
def fcount (tasks : List Task) (u : JSStr) : Nat :=
  tasks.countP fun t => decide (t.phase = TaskPhase.fetching ∧ t.item.url = u)

/-!  Concrete instances used by counterexamples and witnesses. -/

/-- A document with no references. -/
def emptyDoc : Document := ⟨[], [], [], []⟩

/-- The seed URL of the example configurations. -/
def seedU : JSStr := ("https://ex.com").toList

/-- Plain example configuration: `https` seed, depth 3, concurrency 2,
`skipDataImages` on (as it always is in the source), no exclusions. -/
def cfgEx : Config := ⟨seedU, 3, 2, true, [], ("T").toList⟩

/-- Same configuration with an `http` seed. -/
def cfgHttpSeed : Config :=
  ⟨("http://ex.com").toList, 3, 2, true, [], ("T").toList⟩

/-- Configuration with the exclusion prefix `/admin`. -/
def cfgExcl : Config :=
  ⟨seedU, 3, 2, true, [("/admin").toList], ("T").toList⟩

/-- An oracle for contexts where the network is never reached. -/
def orcNone : Oracle := fun _ => .exn none []

/-- An empty starting state for single-call runs of `checkUrl`. -/
def st0 : CrawlState := ⟨[], [], emptyStore, []⟩

/-- The seed frontier item. -/
def seedItem : FrontierItem := ⟨seedU, [], 0, []⟩

/-- An excluded outbound reference. -/
def exclU : JSStr := ("https://other.org/admin/x").toList

/-- The response of the seed page in the exclusion scenarios: an HTML
page linking to `exclU`. -/
def rSeedExcl : FetchResp :=
  ⟨200, ("text/html").toList, seedU, ⟨[(some exclU, [])], [], [], []⟩⟩

/-- Oracle for the exclusion scenarios: the seed page is HTML and links
to `exclU`; everything else is plain text. -/
def orcExcl : Oracle := fun u =>
  if u = seedU then .ok rSeedExcl
  else .ok ⟨200, ("text/plain").toList, u, emptyDoc⟩

/-- Schedule prefix for the exclusion run: dispatch the seed, admit it,
fetch it (which enqueues `exclU`). -/
def csExclPre : List Choice := [.pq, .task 0, .task 0]

/-- Full schedule for the exclusion run: finish the seed task, dispatch
the excluded item, watch its admission reject it, finish it, and run
the final callback. -/
def csExcl : List Choice :=
  csExclPre ++ [.task 0, .pq, .task 0, .task 0, .pq]

/-- Oracle for the double-summary race: the seed page links to two
outbound URLs; everything else is plain text. -/
def orcRace : Oracle := fun u =>
  if u = seedU then
    .ok ⟨200, ("text/html").toList, seedU,
      ⟨[(some (("https://other.org/a").toList), []),
        (some (("https://other.org/b").toList), [])], [], [], []⟩⟩
  else .ok ⟨200, ("text/plain").toList, u, emptyDoc⟩

/-- Schedule realising the double-summary race: both follow-up tasks run
their `finally` callbacks before either registered `processQueue`
callback executes, so two callbacks observe the terminal state. -/
def csRace : List Choice :=
  [.pq, .task 0, .task 0, .task 0, .pq, .task 0, .task 1, .task 0,
   .task 1, .task 0, .task 0, .pq, .pq]

/-- A quiescent scheduler state with one pending callback. -/
def sQuiescent : Sys := ⟨[], [], [], emptyStore, [], 1, 0⟩

/-- A task whose URL is already visited, for the provenance-merge
witness. -/
def tMerge : Task :=
  ⟨⟨seedU, ("https://r.example").toList, 0, []⟩, .admitting⟩

/-- A scheduler state in which `tMerge` rediscovers the visited seed. -/
def sMerge : Sys := ⟨[], [tMerge], [seedU], emptyStore, [], 0, 0⟩

/-- A `data:image` frontier item. -/
def dataImageItem : FrontierItem :=
  ⟨("data:image/png;base64,AAAA").toList, seedU, 1, [seedU]⟩

/-- Oracle for the error-handling witness: the seed fetch throws after
the server reported status 500. -/
def orcErr : Oracle := fun u =>
  if u = seedU then .exn (some 500) (("socket hang up").toList)
  else .exn none (("timeout").toList)

/-- The classifier precedence exactly as the specification words it
(claim C9), kept separate from `getAssetType` so that the two can be
compared: explicit tag kind first (anchor, script tag, img tag), then
a stylesheet-link tag with `.css` suffix, then extension sniffing. -/
def specClassify (url tag : JSStr) : JSStr :=
  if tag = ("a").toList then atLink
  else if tag = ("script").toList then atScript
  else if tag = ("img").toList then atImage
  else if tag = ("link").toList ∧ extTest (("css").toList) url then atCss
  else if imageExts.any (fun e => extTest e url) then atImage
  else if extTest (("css").toList) url then atCss
  else if extTest (("js").toList) url then atScript
  else atOther

/-!  Theorems.  Helper lemmas come first; the claim theorems carry the
claim identifier in their doc comments. -/

theorem assocGet_assocSet {α : Type} (l : List (JSStr × α)) (k₀ k : JSStr)
    (v : α) :
    assocGet (assocSet l k₀ v) k = if k₀ = k then some v else assocGet l k := by
  induction l with
  | nil => simp [assocGet, assocSet]
  | cons hd tl ih =>
    by_cases h : hd.1 = k₀
    · simp only [assocSet, h, if_pos rfl]
      by_cases hk : k₀ = k
      · simp [assocGet, hk]
      · simp [assocGet, hk, h, assocSet]
    · simp only [assocSet, if_neg h]
      by_cases hk : hd.1 = k
      · have : ¬ k₀ = k := fun he => h (he ▸ hk)
        simp [assocGet, hk, this]
      · simp [assocGet, hk, ih]

theorem mem_addUnique_self (l : List JSStr) (x : JSStr) :
    x ∈ addUnique l x := by
  unfold addUnique
  by_cases h : x ∈ l
  · simp [h]
  · simp [h]

theorem mem_addUnique_of_mem (l : List JSStr) (x y : JSStr) (h : y ∈ l) :
    y ∈ addUnique l x := by
  unfold addUnique
  by_cases hx : x ∈ l
  · simpa [hx]
  · simp [hx, h]

theorem fetchPhase_exn_eq (cfg : Config) (orc : Oracle) (url referrer : JSStr)
    (depth : Nat) (sp visited : List JSStr) (store : Store)
    (respStatus : Option Nat) (msg : JSStr)
    (hnd : jsStartsWith url (("data:image").toList) = false)
    (horc : orc url = .exn respStatus msg) :
    fetchPhase cfg orc url referrer depth sp visited store =
      (storeResult store url
        (errorRecord cfg url referrer depth sp respStatus msg),
       [], [url]) := by
  have hnd2 : jsStartsWith url
      ['d', 'a', 't', 'a', ':', 'i', 'm', 'a', 'g', 'e'] = false := by
    simpa using hnd
  unfold fetchPhase
  rw [horc]
  simp [hnd2]

theorem checkUrl_claims (cfg : Config) (orc : Oracle) (s : CrawlState)
    (item : FrontierItem)
    (hadm : shouldCrawlUrl cfg item.url item.depth = true)
    (hnv : ¬ item.url ∈ s.visited) :
    checkUrl cfg orc s item =
      { visited := s.visited ++ [item.url]
        queue := s.queue ++ (fetchPhase cfg orc item.url item.referrer
          item.depth item.sourcePages (s.visited ++ [item.url]) s.store).2.1
        store := (fetchPhase cfg orc item.url item.referrer item.depth
          item.sourcePages (s.visited ++ [item.url]) s.store).1
        fetchLog := s.fetchLog ++ (fetchPhase cfg orc item.url item.referrer
          item.depth item.sourcePages (s.visited ++ [item.url])
          s.store).2.2 } := by
  unfold checkUrl
  rw [if_neg (by simp [hadm]), if_neg hnv]

/-- Claim C8: when the fetch of a URL raises an exception, `checkUrl`
writes a record whose `status` is `error.response?.status || 0` and
whose `error` field carries the message; the failure is terminal — the
URL stays claimed in the visited set (so it is never retried) and no
frontier items are emitted — and the queue is exactly as before, so
the crawl continues with the remaining items. -/
theorem fetch_error_terminal_record (cfg : Config) (orc : Oracle)
    (s : CrawlState) (item : FrontierItem) (respStatus : Option Nat)
    (msg : JSStr)
    (hadm : shouldCrawlUrl cfg item.url item.depth = true)
    (hnv : ¬ item.url ∈ s.visited)
    (hnd : jsStartsWith item.url (("data:image").toList) = false)
    (horc : orc item.url = .exn respStatus msg) :
    (checkUrl cfg orc s item).queue = s.queue ∧
    (checkUrl cfg orc s item).fetchLog = s.fetchLog ++ [item.url] ∧
    item.url ∈ (checkUrl cfg orc s item).visited ∧
    hashField (checkUrl cfg orc s item).store
        (fixProtocolRelativeUrl item.url) (("status").toList)
      = some (natToJS (jsOrNat respStatus 0)) ∧
    hashField (checkUrl cfg orc s item).store
        (fixProtocolRelativeUrl item.url) (("error").toList)
      = some msg := by
  rw [checkUrl_claims cfg orc s item hadm hnv,
    fetchPhase_exn_eq cfg orc item.url item.referrer item.depth
      item.sourcePages (s.visited ++ [item.url]) s.store respStatus msg hnd
      horc]
  refine ⟨List.append_nil s.queue, rfl, List.mem_append_right _ (by simp),
    ?_, ?_⟩ <;>
  · unfold storeResult errorRecord
    simp [hashField, assocGet, assocGet_assocSet, jvalToStr, apply_ite
      Store.hashes]

/-- Witness for `fetch_error_terminal_record`. -/
theorem fetch_error_terminal_record_witness :
    (checkUrl cfgEx orcErr st0 seedItem).queue = st0.queue ∧
    (checkUrl cfgEx orcErr st0 seedItem).fetchLog
      = st0.fetchLog ++ [seedItem.url] ∧
    seedItem.url ∈ (checkUrl cfgEx orcErr st0 seedItem).visited ∧
    hashField (checkUrl cfgEx orcErr st0 seedItem).store
        (fixProtocolRelativeUrl seedItem.url) (("status").toList)
      = some (natToJS (jsOrNat (some 500) 0)) ∧
    hashField (checkUrl cfgEx orcErr st0 seedItem).store
        (fixProtocolRelativeUrl seedItem.url) (("error").toList)
      = some (("socket hang up").toList) :=
  fetch_error_terminal_record cfgEx orcErr st0 seedItem (some 500)
    (("socket hang up").toList) (by decide) (by decide) (by decide)
    (by decide)

/-- Claim C9: classification precedence — an anchor tag yields `link`, a
script tag `script`, an img tag `image`, a stylesheet-link tag with a
`.css` suffix `css`; otherwise extension sniffing applies (image
extensions, then `.css`, then `.js`) with default `other`.
`getAssetType` agrees with the precedence `specClassify` taken from
the specification wording, at every URL and tag. -/
theorem getAssetType_matches_spec_precedence (url tag : JSStr) :
    getAssetType url tag = specClassify url tag := by
  by_cases h1 : tag = ("a").toList
  · subst h1; rfl
  · by_cases h2 : tag = ("script").toList
    · subst h2; rfl
    · by_cases h3 : tag = ("img").toList
      · subst h3; rfl
      · by_cases h4 : tag = ("link").toList
        · subst h4
          by_cases h5 : extTest (("css").toList) url = true
          · simp [getAssetType, specClassify, h5]
          · simp [getAssetType, specClassify, h5]
        · replace h1 : ¬ tag = ['a'] := by simpa using h1
          replace h2 : ¬ tag = ['s', 'c', 'r', 'i', 'p', 't'] := by
            simpa using h2
          replace h3 : ¬ tag = ['i', 'm', 'g'] := by simpa using h3
          replace h4 : ¬ tag = ['l', 'i', 'n', 'k'] := by simpa using h4
          simp [getAssetType, specClassify, h1, h2, h3, h4]

/-- Claim C3, counterexample: `normalizeUrl` is not idempotent.  For
`https://ex.com/path/?utm_source=1` the first pass deletes the only
query parameter — so the `?` disappears but the trailing slash of the
path survives — and the second pass then strips that slash. -/
theorem normalizeUrl_not_idempotent_counterexample :
    normalizeUrl cfgEx
        (normalizeUrl cfgEx (("https://ex.com/path/?utm_source=1").toList)
          seedU)
        seedU
      ≠ normalizeUrl cfgEx (("https://ex.com/path/?utm_source=1").toList)
          seedU := by decide

/-- Claim C5, counterexample: with an `http` seed, a protocol-relative
reference is *not* prefixed with the scheme of the seed — the source
hardcodes `https:` (line 146) — so the result differs from the
seed-scheme-prefixed reference the claim promises. -/
theorem protocolRelative_scheme_counterexample :
    baseProtocol cfgHttpSeed = ("http:").toList ∧
    normalizeUrl cfgHttpSeed (("//ex.com/a").toList)
        (("http://ex.com").toList)
      = ("https://ex.com/a").toList ∧
    normalizeUrl cfgHttpSeed (("//ex.com/a").toList)
        (("http://ex.com").toList)
      ≠ baseProtocol cfgHttpSeed ++ ("//ex.com/a").toList := by decide

/-- Claim C5, amended: a protocol-relative reference is treated exactly
as if it carried the literal `https` scheme — regardless of the scheme
of the configured seed URL. -/
theorem protocolRelative_uses_literal_https (cfg : Config) (u b : JSStr)
    (h : jsStartsWith u (("//").toList) = true) :
    normalizeUrl cfg u b = normalizeUrl cfg ((("https:").toList) ++ u) b := by
  have h2 : jsStartsWith ((("https:").toList) ++ u) (("//").toList) = false := by
    simp [jsStartsWith, List.isPrefixOf]
  unfold normalizeUrl
  simp only [h, h2, if_true, if_false, Bool.false_eq_true]

/-- Witness for `protocolRelative_uses_literal_https`. -/
theorem protocolRelative_uses_literal_https_witness :
    normalizeUrl cfgEx (("//ex.com/a").toList) seedU
      = normalizeUrl cfgEx ((("https:").toList) ++ ("//ex.com/a").toList)
          seedU :=
  protocolRelative_uses_literal_https cfgEx (("//ex.com/a").toList) seedU
    (by decide)

/-- Claim C4 (code bug): processing a `data:image` URL under
`skipDataImages` writes nothing at all — the admission check rejects
such URLs before the block that would synthesize the status-200 image
record is ever reached (that block, lines 434-456, is unreachable), so
`checkUrl` returns with the state untouched. -/
theorem dataImage_record_never_written (cfg : Config) (orc : Oracle)
    (s : CrawlState) (item : FrontierItem)
    (hskip : cfg.skipDataImages = true)
    (hdata : jsStartsWith item.url (("data:image").toList) = true) :
    checkUrl cfg orc s item = s ∧
    shouldCrawlUrl cfg item.url item.depth = false := by
  have hsc : shouldCrawlUrl cfg item.url item.depth = false := by
    unfold shouldCrawlUrl
    split_ifs with hd hs he
    · rfl
    · rfl
    · rfl
    · exact absurd ⟨hskip, hdata⟩ hs
  exact ⟨by simp [checkUrl, hsc], hsc⟩

/-- Witness for `dataImage_record_never_written`. -/
theorem dataImage_record_never_written_witness :
    checkUrl cfgEx orcNone st0 dataImageItem = st0 ∧
    shouldCrawlUrl cfgEx dataImageItem.url dataImageItem.depth = false :=
  dataImage_record_never_written cfgEx orcNone st0 dataImageItem rfl
    (by decide)

/-- Claim C7, counterexample: the summary can run twice.  Under the
schedule `csRace` both follow-up tasks finish — each registering a
`processQueue` callback — before either callback runs; both callbacks
then see `queue.length == 0 && activeTasks == 0` and each invokes
`generateCrawlSummary`. -/
theorem summary_invoked_twice_counterexample :
    (runSys cfgEx orcRace csRace).summaryCount = 2 := by decide

/-- Claim C7, amended: the summary is invoked only at quiescent points —
whenever a step changes the summary count, the work queue was empty
and no task was in flight, and the count rose by exactly one — and a
pending callback at a quiescent point does invoke it. -/
theorem summary_only_at_quiescence (cfg : Config) (orc : Oracle) (s : Sys) :
    (∀ c, (step cfg orc s c).summaryCount ≠ s.summaryCount →
      s.queue = [] ∧ s.tasks = [] ∧
      (step cfg orc s c).summaryCount = s.summaryCount + 1) ∧
    (s.queue = [] → s.tasks = [] → 0 < s.pendingPQ →
      (step cfg orc s Choice.pq).summaryCount = s.summaryCount + 1) := by
  have hadv : ∀ i t, (advanceTask cfg orc s i t).summaryCount
      = s.summaryCount := by
    intro i t
    cases t with
    | mk item phase =>
      cases phase with
      | admitting =>
        simp only [advanceTask]
        split_ifs <;> rfl
      | fetching => rfl
      | finishing => rfl
  have key : ∀ c, (step cfg orc s c).summaryCount = s.summaryCount ∨
      (s.queue = [] ∧ s.tasks = [] ∧
        (step cfg orc s c).summaryCount = s.summaryCount + 1) := by
    intro c
    cases c with
    | pq =>
      by_cases hp : s.pendingPQ = 0
      · left; simp [step, hp]
      · by_cases hq : s.queue = []
        · by_cases hts : s.tasks = []
          · right; exact ⟨hq, hts, by simp [step, hp, hq, hts]⟩
          · left; simp [step, hp, hq, hts]
        · left; simp [step, hp, hq]
    | task i =>
      left
      simp only [step]
      cases ht : s.tasks[i]? with
      | none => rfl
      | some t => exact hadv i t
  constructor
  · intro c h
    cases key c with
    | inl he => exact absurd he h
    | inr hr => exact hr
  · intro hq ht hp
    have hp0 : ¬ s.pendingPQ = 0 := by omega
    simp [step, hp0, hq, ht]

/-- Witness for `summary_only_at_quiescence`. -/
theorem summary_only_at_quiescence_witness :
    (step cfgEx orcNone sQuiescent Choice.pq).summaryCount
      = sQuiescent.summaryCount + 1 :=
  (summary_only_at_quiescence cfgEx orcNone sQuiescent).2 rfl rfl
    (by decide)

/-- Claim C6, counterexample: an outbound link matching an exclusion
prefix is discovered and enqueued (pinned to `maxDepth`), but is never
fetched: the run terminates (empty queue, no tasks) with zero fetches
of that URL, contradicting "fetched/checked exactly once". -/
theorem outbound_excluded_never_fetched_counterexample :
    (⟨exclU, seedU, 3, [seedU]⟩ : FrontierItem)
        ∈ (runSys cfgExcl orcExcl csExclPre).queue ∧
    (runSys cfgExcl orcExcl csExcl).queue = [] ∧
    (runSys cfgExcl orcExcl csExcl).tasks = [] ∧
    (runSys cfgExcl orcExcl csExcl).summaryCount = 1 ∧
    (runSys cfgExcl orcExcl csExcl).fetchLog.count exclU = 0 := by decide

theorem fetchPhase_ok_extract_eq (cfg : Config) (orc : Oracle)
    (url referrer : JSStr) (depth : Nat) (sp visited : List JSStr)
    (store : Store) (r : FetchResp)
    (hnd : jsStartsWith url (("data:image").toList) = false)
    (horc : orc url = .ok r)
    (hhtml : isHtmlCT r.contentType = true)
    (hinb : isInboundLink cfg url = true)
    (hdep : depth < cfg.maxDepth) :
    fetchPhase cfg orc url referrer depth sp visited store =
      (((extractLinks cfg r.doc url).foldl
          (processExtractedLink cfg url depth sp visited)
          ([], storeResult store url
            (responseRecord cfg url referrer depth sp r))).2,
       ((extractLinks cfg r.doc url).foldl
          (processExtractedLink cfg url depth sp visited)
          ([], storeResult store url
            (responseRecord cfg url referrer depth sp r))).1,
       [url]) := by
  have hnd2 : jsStartsWith url
      ['d', 'a', 't', 'a', ':', 'i', 'm', 'a', 'g', 'e'] = false := by
    simpa using hnd
  unfold fetchPhase
  rw [horc]
  simp [hnd2, hhtml, hinb, hdep]

theorem stub_fields_self (cfg : Config) (pageUrl : JSStr) (depth : Nat)
    (sp visited : List JSStr) (acc : List FrontierItem × Store) (link : Link)
    (hpage : ¬ pageUrl = []) :
    hashField (processExtractedLink cfg pageUrl depth sp visited acc link).2
        (fixProtocolRelativeUrl link.url) (("checkedAt").toList)
      = some [] ∧
    pageUrl ∈ (processExtractedLink cfg pageUrl depth sp visited
        acc link).2.sources (fixProtocolRelativeUrl link.url) := by
  constructor
  · unfold processExtractedLink storeResult
    simp [hashField, assocGet, assocSet, assocGet_assocSet, jvalToStr,
      List.foldl, apply_ite Store.hashes]
  · unfold processExtractedLink storeResult
    simp [hpage, assocGet, assocSet, jvalToStr, List.foldl,
      apply_ite Store.sources, mem_addUnique_self]

theorem stub_fields_preserve (cfg : Config) (pageUrl : JSStr) (depth : Nat)
    (sp visited : List JSStr) (acc : List FrontierItem × Store) (link : Link)
    (u : JSStr) (hpage : ¬ pageUrl = [])
    (h : hashField acc.2 u (("checkedAt").toList) = some [] ∧
      pageUrl ∈ acc.2.sources u) :
    hashField (processExtractedLink cfg pageUrl depth sp visited acc link).2
        u (("checkedAt").toList) = some [] ∧
    pageUrl ∈ (processExtractedLink cfg pageUrl depth sp visited
        acc link).2.sources u := by
  by_cases he : u = fixProtocolRelativeUrl link.url
  · subst he
    exact stub_fields_self cfg pageUrl depth sp visited acc link hpage
  · constructor
    · have h1 := h.1
      unfold processExtractedLink storeResult
      simpa [hashField, assocGet, assocSet, jvalToStr, List.foldl,
        apply_ite Store.hashes, he] using h1
    · have h2 := h.2
      unfold processExtractedLink storeResult
      simpa [hpage, assocGet, assocSet, jvalToStr, List.foldl,
        apply_ite Store.sources, he] using h2

theorem stub_fields_fold_preserve (cfg : Config) (pageUrl : JSStr)
    (depth : Nat) (sp visited : List JSStr) (hpage : ¬ pageUrl = []) :
    ∀ (links : List Link) (acc : List FrontierItem × Store) (u : JSStr),
      (hashField acc.2 u (("checkedAt").toList) = some [] ∧
        pageUrl ∈ acc.2.sources u) →
      hashField (links.foldl
          (processExtractedLink cfg pageUrl depth sp visited) acc).2 u
          (("checkedAt").toList) = some [] ∧
      pageUrl ∈ (links.foldl
          (processExtractedLink cfg pageUrl depth sp visited) acc).2.sources
          u := by
  intro links
  induction links with
  | nil => intro acc u h; exact h
  | cons l ls ih =>
    intro acc u h
    exact ih _ u
      (stub_fields_preserve cfg pageUrl depth sp visited acc l u hpage h)

theorem stub_fields_fold_mem (cfg : Config) (pageUrl : JSStr) (depth : Nat)
    (sp visited : List JSStr) (hpage : ¬ pageUrl = []) :
    ∀ (links : List Link) (acc : List FrontierItem × Store) (link : Link),
      link ∈ links →
      hashField (links.foldl
          (processExtractedLink cfg pageUrl depth sp visited) acc).2
          (fixProtocolRelativeUrl link.url) (("checkedAt").toList)
        = some [] ∧
      pageUrl ∈ (links.foldl
          (processExtractedLink cfg pageUrl depth sp visited) acc).2.sources
          (fixProtocolRelativeUrl link.url) := by
  intro links
  induction links with
  | nil => intro acc link h; exact absurd h (List.not_mem_nil link)
  | cons l ls ih =>
    intro acc link h
    rcases List.mem_cons.mp h with he | hm
    · subst he
      exact stub_fields_fold_preserve cfg pageUrl depth sp visited hpage ls _
        _ (stub_fields_self cfg pageUrl depth sp visited acc link hpage)
    · exact ih _ link hm

/-- Claim C10: every reference extracted from a fetched inbound HTML page
gets, at extraction time, a stub record with an empty `checkedAt`
field and a provenance entry naming the extracting page — with no
admission condition on the reference itself (depth, exclusion and
data-URL checks play no role, and neither does later dispatch). -/
theorem extracted_stub_and_provenance_recorded (cfg : Config) (orc : Oracle)
    (s : CrawlState) (item : FrontierItem) (r : FetchResp)
    (hadm : shouldCrawlUrl cfg item.url item.depth = true)
    (hnv : ¬ item.url ∈ s.visited)
    (hnd : jsStartsWith item.url (("data:image").toList) = false)
    (horc : orc item.url = .ok r)
    (hhtml : isHtmlCT r.contentType = true)
    (hinb : isInboundLink cfg item.url = true)
    (hdep : item.depth < cfg.maxDepth)
    (hpage : ¬ item.url = []) :
    ∀ link ∈ extractLinks cfg r.doc item.url,
      hashField (checkUrl cfg orc s item).store
          (fixProtocolRelativeUrl link.url) (("checkedAt").toList)
        = some [] ∧
      item.url ∈ (checkUrl cfg orc s item).store.sources
          (fixProtocolRelativeUrl link.url) := by
  intro link hmem
  rw [checkUrl_claims cfg orc s item hadm hnv,
    fetchPhase_ok_extract_eq cfg orc item.url item.referrer item.depth
      item.sourcePages (s.visited ++ [item.url]) s.store r hnd horc hhtml
      hinb hdep]
  exact stub_fields_fold_mem cfg item.url item.depth item.sourcePages
    (s.visited ++ [item.url]) hpage (extractLinks cfg r.doc item.url) _ link
    hmem

/-- Witness for `extracted_stub_and_provenance_recorded`. -/
theorem extracted_stub_and_provenance_recorded_witness :
    hashField (checkUrl cfgExcl orcExcl st0 seedItem).store
        (fixProtocolRelativeUrl exclU) (("checkedAt").toList) = some [] ∧
    seedItem.url ∈ (checkUrl cfgExcl orcExcl st0 seedItem).store.sources
        (fixProtocolRelativeUrl exclU) :=
  extracted_stub_and_provenance_recorded cfgExcl orcExcl st0 seedItem
    rSeedExcl (by decide) (by decide) (by decide) (by decide) (by decide)
    (by decide) (by decide) (by decide)
    ⟨exclU, ("a").toList, [], []⟩ (by decide)

theorem processExtractedLink_items (cfg : Config) (pageUrl : JSStr)
    (depth : Nat) (sp visited : List JSStr) (acc : List FrontierItem × Store)
    (link : Link) :
    ∃ d, (processExtractedLink cfg pageUrl depth sp visited acc link).1
      = acc.1 ++ d ∧
      ∀ it ∈ d, isInboundLink cfg it.url = false → it.depth = cfg.maxDepth := by
  simp only [processExtractedLink]
  split_ifs with h1 h2
  · refine ⟨[⟨link.url, pageUrl, depth + 1, sp ++ [pageUrl]⟩], rfl, ?_⟩
    intro it hit houtb
    rw [List.mem_singleton] at hit
    subst hit
    exact absurd h1.1 (by simp [houtb])
  · exact ⟨[⟨link.url, pageUrl, cfg.maxDepth, sp ++ [pageUrl]⟩], rfl,
      by intro it hit _; rw [List.mem_singleton] at hit; rw [hit]⟩
  · exact ⟨[], by simp, by intro it hit; exact absurd hit (List.not_mem_nil it)⟩

theorem fold_items_extension (cfg : Config) (pageUrl : JSStr) (depth : Nat)
    (sp visited : List JSStr) :
    ∀ (links : List Link) (acc : List FrontierItem × Store),
      ∃ ext, (links.foldl
          (processExtractedLink cfg pageUrl depth sp visited) acc).1
        = acc.1 ++ ext ∧
        ∀ it ∈ ext, isInboundLink cfg it.url = false →
          it.depth = cfg.maxDepth := by
  intro links
  induction links with
  | nil => intro acc; exact ⟨[], by simp, by intro it hit; cases hit⟩
  | cons l ls ih =>
    intro acc
    obtain ⟨ext, hext, hpin⟩ :=
      ih (processExtractedLink cfg pageUrl depth sp visited acc l)
    obtain ⟨d, hd, hdpin⟩ :=
      processExtractedLink_items cfg pageUrl depth sp visited acc l
    refine ⟨d ++ ext, ?_, ?_⟩
    · simp only [List.foldl_cons, hext, hd, List.append_assoc]
    · intro it hit
      rcases List.mem_append.mp hit with h | h
      · exact hdpin it h
      · exact hpin it h

theorem outbound_item_fold_mem (cfg : Config) (pageUrl : JSStr) (depth : Nat)
    (sp visited : List JSStr) :
    ∀ (links : List Link) (acc : List FrontierItem × Store) (link : Link),
      link ∈ links → isInboundLink cfg link.url = false →
      ¬ link.url ∈ visited →
      (⟨link.url, pageUrl, cfg.maxDepth, sp ++ [pageUrl]⟩ : FrontierItem)
        ∈ (links.foldl
            (processExtractedLink cfg pageUrl depth sp visited) acc).1 := by
  intro links
  induction links with
  | nil => intro acc link h; exact absurd h (List.not_mem_nil link)
  | cons l ls ih =>
    intro acc link h houtb hnv
    rcases List.mem_cons.mp h with he | hm
    · subst he
      obtain ⟨ext, hext, _⟩ := fold_items_extension cfg pageUrl depth sp
        visited ls (processExtractedLink cfg pageUrl depth sp visited acc link)
      rw [List.foldl_cons, hext]
      have hstep : (processExtractedLink cfg pageUrl depth sp visited
          acc link).1 = acc.1 ++
          [⟨link.url, pageUrl, cfg.maxDepth, sp ++ [pageUrl]⟩] := by
        simp only [processExtractedLink]
        rw [if_neg, if_pos ⟨by simp [houtb], hnv⟩]
        intro hc
        exact absurd houtb (by simp [hc.1])
      rw [hstep]
      simp
    · exact ih _ link hm houtb hnv

/-- Claim C6, amended: an outbound link discovered inside a fetched page
and not yet visited is enqueued with its depth pinned to `maxDepth`
(part 1); every frontier item the worker emits for an outbound URL has
depth `maxDepth` (part 2); and processing an outbound URL never emits
frontier items — the queue is unchanged (part 3).  The original
"fetched/checked exactly once" fails for excluded outbound links (see
the counterexample); at-most-once fetching holds by the visited-set
invariant of claim C1. -/
theorem outbound_pinned_and_not_expanded (cfg : Config) (orc : Oracle) :
    (∀ (url referrer : JSStr) (depth : Nat) (sp visited : List JSStr)
        (store : Store) (r : FetchResp) (link : Link),
      jsStartsWith url (("data:image").toList) = false →
      orc url = .ok r → isHtmlCT r.contentType = true →
      isInboundLink cfg url = true → depth < cfg.maxDepth →
      link ∈ extractLinks cfg r.doc url →
      isInboundLink cfg link.url = false → ¬ link.url ∈ visited →
      (⟨link.url, url, cfg.maxDepth, sp ++ [url]⟩ : FrontierItem)
        ∈ (fetchPhase cfg orc url referrer depth sp visited store).2.1) ∧
    (∀ (url referrer : JSStr) (depth : Nat) (sp visited : List JSStr)
        (store : Store) (it : FrontierItem),
      it ∈ (fetchPhase cfg orc url referrer depth sp visited store).2.1 →
      isInboundLink cfg it.url = false → it.depth = cfg.maxDepth) ∧
    (∀ (s : CrawlState) (item : FrontierItem),
      isInboundLink cfg item.url = false →
      (checkUrl cfg orc s item).queue = s.queue) := by
  refine ⟨?_, ?_, ?_⟩
  · intro url referrer depth sp visited store r link hnd horc hhtml hinb
      hdep hmem houtb hnv
    rw [fetchPhase_ok_extract_eq cfg orc url referrer depth sp visited store
      r hnd horc hhtml hinb hdep]
    exact outbound_item_fold_mem cfg url depth sp visited
      (extractLinks cfg r.doc url) _ link hmem houtb hnv
  · intro url referrer depth sp visited store it hmem houtb
    unfold fetchPhase at hmem
    split_ifs at hmem with hd
    · exact absurd hmem (List.not_mem_nil it)
    · cases ho : orc url with
      | ok r =>
        rw [ho] at hmem
        simp only at hmem
        split_ifs at hmem with hc
        · obtain ⟨ext, hext, hpin⟩ := fold_items_extension cfg url depth sp
            visited (extractLinks cfg r.doc url)
            ([], storeResult store url
              (responseRecord cfg url referrer depth sp r))
          rw [hext] at hmem
          simp only [List.nil_append] at hmem
          exact hpin it hmem houtb
        · exact absurd hmem (List.not_mem_nil it)
      | exn rs m =>
        rw [ho] at hmem
        exact absurd hmem (List.not_mem_nil it)
  · intro s item houtb
    have hfp : ∀ visited, (fetchPhase cfg orc item.url item.referrer
        item.depth item.sourcePages visited s.store).2.1 = [] := by
      intro visited
      unfold fetchPhase
      split_ifs with hd
      · rfl
      · cases ho : orc item.url with
        | ok r =>
          simp only
          rw [if_neg]
          intro hc
          exact absurd houtb (by simp [hc.2.1])
        | exn rs m => rfl
    unfold checkUrl
    split_ifs with h1 h2 <;> simp [hfp]

/-- Witness for `outbound_pinned_and_not_expanded`. -/
theorem outbound_pinned_and_not_expanded_witness :
    (⟨exclU, seedU, cfgExcl.maxDepth, [] ++ [seedU]⟩ : FrontierItem)
      ∈ (fetchPhase cfgExcl orcExcl seedU [] 0 [] [seedU] emptyStore).2.1 ∧
    (checkUrl cfgExcl orcExcl st0 ⟨exclU, seedU, 3, [seedU]⟩).queue
      = st0.queue :=
  ⟨(outbound_pinned_and_not_expanded cfgExcl orcExcl).1 seedU [] 0 [] [seedU]
    emptyStore rSeedExcl ⟨exclU, ("a").toList, [], []⟩ (by decide) (by decide)
    (by decide) (by decide) (by decide) (by decide) (by decide) (by decide),
   (outbound_pinned_and_not_expanded cfgExcl orcExcl).2.2 st0
    ⟨exclU, seedU, 3, [seedU]⟩ (by decide)⟩

theorem fcount_append (A B : List Task) (u : JSStr) :
    fcount (A ++ B) u = fcount A u + fcount B u := by
  unfold fcount
  exact List.countP_append _ _ _

theorem fcount_cons (t : Task) (T : List Task) (u : JSStr) :
    fcount (t :: T) u = fcount T u +
      (if t.phase = TaskPhase.fetching ∧ t.item.url = u then 1 else 0) := by
  unfold fcount
  rw [List.countP_cons]
  simp

theorem fcount_map_admitting (l : List FrontierItem) (u : JSStr) :
    fcount (l.map fun it => (⟨it, .admitting⟩ : Task)) u = 0 := by
  induction l with
  | nil => rfl
  | cons x xs ih =>
    rw [List.map_cons, fcount_cons, ih]
    simp

theorem tasks_decomp {l : List Task} {i : Nat} {t : Task}
    (h : l[i]? = some t) :
    l = l.take i ++ t :: l.drop (i + 1) := by
  obtain ⟨hlt, hgt⟩ := List.getElem?_eq_some_iff.mp h
  conv_lhs => rw [← List.take_append_drop i l]
  rw [List.drop_eq_getElem_cons hlt, hgt]

theorem fetchPhase_log (cfg : Config) (orc : Oracle) (url referrer : JSStr)
    (depth : Nat) (sp visited : List JSStr) (store : Store) :
    (fetchPhase cfg orc url referrer depth sp visited store).2.2 = [] ∨
    (fetchPhase cfg orc url referrer depth sp visited store).2.2 = [url] := by
  unfold fetchPhase
  split_ifs with hd
  · left; rfl
  · cases ho : orc url with
    | ok r =>
      simp only
      split_ifs with hc
      · right; rfl
      · right; rfl
    | exn rs m => right; rfl

theorem fcount_cons_mk (item : FrontierItem) (ph : TaskPhase)
    (T : List Task) (u : JSStr) :
    fcount (⟨item, ph⟩ :: T) u = fcount T u +
      (if ph = TaskPhase.fetching ∧ item.url = u then 1 else 0) :=
  fcount_cons ⟨item, ph⟩ T u

theorem fcount_eq_zero_of_admitting (T : List Task) (u : JSStr)
    (h : ∀ t ∈ T, t.phase = TaskPhase.admitting) : fcount T u = 0 := by
  unfold fcount
  rw [List.countP_eq_zero]
  intro t htm
  simp only [decide_eq_true_eq]
  intro hc
  rw [h t htm] at hc
  exact absurd hc.1 (by simp)

theorem fetchOnce_step (cfg : Config) (orc : Oracle) (s : Sys) (c : Choice)
    (hinv : ∀ u, s.fetchLog.count u + fcount s.tasks u
      ≤ if u ∈ s.visited then 1 else 0) (u : JSStr) :
    (step cfg orc s c).fetchLog.count u + fcount (step cfg orc s c).tasks u
      ≤ if u ∈ (step cfg orc s c).visited then 1 else 0 := by
  cases c with
  | pq =>
    by_cases hp : s.pendingPQ = 0
    · simpa [step, hp] using hinv u
    · by_cases hq2 : s.queue = [] ∧ s.tasks = []
      · simp only [step, if_neg hp, if_pos hq2]
        simpa using hinv u
      · simp only [step, if_neg hp, if_neg hq2]
        show s.fetchLog.count u
            + fcount (s.tasks ++ (s.queue.take (min
                (cfg.concurrency - s.tasks.length) s.queue.length)).map
                fun it => (⟨it, .admitting⟩ : Task)) u
          ≤ if u ∈ s.visited then 1 else 0
        rw [fcount_append]
        have hz0 : fcount ((s.queue.take (min (cfg.concurrency
            - s.tasks.length) s.queue.length)).map
            fun it => (⟨it, .admitting⟩ : Task)) u = 0 :=
          fcount_eq_zero_of_admitting _ u (by
            intro t htm
            obtain ⟨it, -, rfl⟩ := List.mem_map.mp htm
            rfl)
        rw [hz0]
        have h := hinv u
        omega
  | task i =>
    cases ht : s.tasks[i]? with
    | none => simpa [step, ht] using hinv u
    | some t =>
      have hdec := tasks_decomp ht
      simp only [step, ht]
      obtain ⟨item, phase⟩ := t
      have hsplit : fcount s.tasks u
          = fcount (s.tasks.take i) u + fcount (s.tasks.drop (i + 1)) u
            + (if phase = TaskPhase.fetching ∧ item.url = u
               then 1 else 0) := by
        conv_lhs => rw [hdec]
        rw [fcount_append, fcount_cons_mk]
        omega
      have hsetfc : ∀ ph, fcount (setTaskAt s.tasks i ⟨item, ph⟩) u
          = fcount (s.tasks.take i) u + fcount (s.tasks.drop (i + 1)) u
            + (if ph = TaskPhase.fetching ∧ item.url = u then 1 else 0) := by
        intro ph
        show fcount (s.tasks.take i ++ ⟨item, ph⟩ :: s.tasks.drop (i + 1)) u
          = _
        rw [fcount_append, fcount_cons_mk]
        omega
      have hzfin : (if TaskPhase.finishing = TaskPhase.fetching
          ∧ item.url = u then 1 else 0) = 0 := by simp
      cases phase with
      | admitting =>
        have h := hinv u
        rw [hsplit] at h
        have hzadm : (if TaskPhase.admitting = TaskPhase.fetching
            ∧ item.url = u then 1 else 0) = 0 := by simp
        rw [hzadm] at h
        simp only [advanceTask]
        by_cases hc1 : shouldCrawlUrl cfg item.url item.depth = true
        case neg =>
          rw [if_pos hc1]
          show s.fetchLog.count u
              + fcount (setTaskAt s.tasks i ⟨item, TaskPhase.finishing⟩) u
            ≤ if u ∈ s.visited then 1 else 0
          rw [hsetfc, hzfin]
          omega
        case pos =>
        rw [if_neg (not_not_intro hc1)]
        by_cases hc2 : item.url ∈ s.visited
        case pos =>
          rw [if_pos hc2]
          show s.fetchLog.count u
              + fcount (setTaskAt s.tasks i ⟨item, TaskPhase.finishing⟩) u
            ≤ if u ∈ s.visited then 1 else 0
          rw [hsetfc, hzfin]
          omega
        case neg =>
          rw [if_neg hc2]
          show s.fetchLog.count u
              + fcount (setTaskAt s.tasks i ⟨item, TaskPhase.fetching⟩) u
            ≤ if u ∈ s.visited ++ [item.url] then 1 else 0
          rw [hsetfc]
          rename item.url ∉ s.visited => h2
          by_cases hu : item.url = u
          · subst hu
            have hz : (if item.url ∈ s.visited then 1 else 0) = 0 := by
              simp [h2]
            rw [hz] at h
            have hmem : (if item.url ∈ s.visited ++ [item.url]
                then 1 else 0) = 1 := by simp
            rw [hmem]
            have hone : (if TaskPhase.fetching = TaskPhase.fetching
                ∧ item.url = item.url then 1 else 0) = 1 := by simp
            rw [hone]
            omega
          · have hmem : (if u ∈ s.visited ++ [item.url] then 1 else 0)
                = if u ∈ s.visited then 1 else 0 := by
              have : (u ∈ s.visited ++ [item.url]) ↔ u ∈ s.visited := by
                simp only [List.mem_append, List.mem_singleton]
                refine ⟨?_, Or.inl⟩
                rintro (hh | hh)
                · exact hh
                · exact absurd hh.symm hu
              rw [if_congr this rfl rfl]
            rw [hmem]
            have hz : (if TaskPhase.fetching = TaskPhase.fetching
                ∧ item.url = u then 1 else 0) = 0 := by simp [hu]
            rw [hz]
            omega
      | fetching =>
        have h := hinv u
        rw [hsplit] at h
        simp only [advanceTask]
        show (s.fetchLog ++ (fetchPhase cfg orc item.url item.referrer
              item.depth item.sourcePages s.visited s.store).2.2).count u
            + fcount (setTaskAt s.tasks i ⟨item, TaskPhase.finishing⟩) u
          ≤ if u ∈ s.visited then 1 else 0
        rw [hsetfc, hzfin]
        rcases fetchPhase_log cfg orc item.url item.referrer item.depth
          item.sourcePages s.visited s.store with hlog | hlog
        · rw [hlog, List.append_nil]
          omega
        · rw [hlog, List.count_append]
          by_cases hu : item.url = u
          · subst hu
            have hone : (if TaskPhase.fetching = TaskPhase.fetching
                ∧ item.url = item.url then 1 else 0) = 1 := by simp
            rw [hone] at h
            have hvis : item.url ∈ s.visited := by
              by_contra hnv
              simp [hnv] at h
            have hv1 : (if item.url ∈ s.visited then 1 else 0) = 1 := by
              simp [hvis]
            rw [hv1] at h ⊢
            have hc1 : List.count item.url [item.url] = 1 := by simp
            rw [hc1]
            omega
          · have hc0 : List.count u [item.url] = 0 := by
              simp only [List.count_singleton]
              simp [hu]
            rw [hc0]
            have hz : (if TaskPhase.fetching = TaskPhase.fetching
                ∧ item.url = u then 1 else 0) = 0 := by simp [hu]
            rw [hz] at h
            omega
      | finishing =>
        have h := hinv u
        rw [hsplit, hzfin] at h
        simp only [advanceTask]
        show s.fetchLog.count u
            + fcount (s.tasks.take i ++ s.tasks.drop (i + 1)) u
          ≤ if u ∈ s.visited then 1 else 0
        rw [fcount_append]
        omega

/-- Claim C1: along every schedule of every run, each URL is fetched at
most once (part 1) — the admission/claim segment adds the URL to the
visited set atomically before the fetch phase, and that set membership
is what every later discovery of the URL sees; and a later processing
of an already-visited URL performs no fetch and merges its (non-empty)
referrer into the provenance set of the URL (part 2). -/
theorem fetchLog_at_most_once (cfg : Config) (orc : Oracle) :
    (∀ (cs : List Choice) (u : JSStr),
      (runSys cfg orc cs).fetchLog.count u ≤ 1) ∧
    (∀ (s : Sys) (i : Nat) (t : Task), s.tasks[i]? = some t →
      t.phase = TaskPhase.admitting →
      shouldCrawlUrl cfg t.item.url t.item.depth = true →
      t.item.url ∈ s.visited →
      (step cfg orc s (.task i)).fetchLog = s.fetchLog ∧
      (¬ t.item.referrer = [] →
        t.item.referrer
          ∈ (step cfg orc s (.task i)).store.sources t.item.url)) := by
  constructor
  · intro cs u
    have hrun : ∀ v, (runSys cfg orc cs).fetchLog.count v
        + fcount (runSys cfg orc cs).tasks v
        ≤ if v ∈ (runSys cfg orc cs).visited then 1 else 0 := by
      unfold runSys
      induction cs using List.reverseRecOn with
      | nil =>
        intro v
        simp [initSys, fcount]
      | append_singleton cs c ih =>
        intro v
        rw [List.foldl_append, List.foldl_cons, List.foldl_nil]
        exact fetchOnce_step cfg orc _ c ih v
    have h := hrun u
    have : (if u ∈ (runSys cfg orc cs).visited then 1 else 0) ≤ 1 := by
      split_ifs <;> omega
    omega
  · intro s i t ht hph hadm hvis
    obtain ⟨item, phase⟩ := t
    simp only at hph
    subst hph
    simp only [step, ht, advanceTask]
    rw [if_neg (by simp [hadm]), if_pos hvis]
    refine ⟨rfl, fun hr => ?_⟩
    unfold mergeProvenance
    rw [if_neg hr]
    simp [mem_addUnique_self]

/-- Witness for `fetchLog_at_most_once`. -/
theorem fetchLog_at_most_once_witness :
    (runSys cfgEx orcRace csRace).fetchLog.count seedU ≤ 1 ∧
    (step cfgEx orcNone sMerge (.task 0)).fetchLog = [] ∧
    ("https://r.example").toList
      ∈ (step cfgEx orcNone sMerge (.task 0)).store.sources seedU := by
  refine ⟨(fetchLog_at_most_once cfgEx orcRace).1 csRace seedU, ?_, ?_⟩
  · exact ((fetchLog_at_most_once cfgEx orcNone).2 sMerge 0 tMerge (by decide)
      (by decide) (by decide) (by decide)).1
  · exact ((fetchLog_at_most_once cfgEx orcNone).2 sMerge 0 tMerge (by decide)
      (by decide) (by decide) (by decide)).2 (by decide)

theorem shouldCrawl_not_excluded (cfg : Config) (url : JSStr) (d : Nat)
    (h : shouldCrawlUrl cfg url d = true) : isUrlExcluded cfg url = false := by
  unfold shouldCrawlUrl at h
  split_ifs at h with h1 h2 h3
  all_goals
    first
      | exact absurd h (by decide)
      | simpa using h3

theorem excluded_inv_step (cfg : Config) (orc : Oracle) (s : Sys) (c : Choice)
    (u : JSStr) (hex : isUrlExcluded cfg u = true)
    (hinv : ¬ u ∈ s.visited ∧ ¬ u ∈ s.fetchLog ∧
      ∀ t ∈ s.tasks, t.item.url = u → ¬ t.phase = TaskPhase.fetching) :
    ¬ u ∈ (step cfg orc s c).visited ∧ ¬ u ∈ (step cfg orc s c).fetchLog ∧
      ∀ t ∈ (step cfg orc s c).tasks, t.item.url = u →
        ¬ t.phase = TaskPhase.fetching := by
  obtain ⟨hv, hl, htk⟩ := hinv
  cases c with
  | pq =>
    by_cases hp : s.pendingPQ = 0
    · simpa [step, hp] using ⟨hv, hl, htk⟩
    · by_cases hq2 : s.queue = [] ∧ s.tasks = []
      · simp only [step, if_neg hp, if_pos hq2]
        exact ⟨hv, hl, htk⟩
      · simp only [step, if_neg hp, if_neg hq2]
        refine ⟨hv, hl, ?_⟩
        intro t htm hurl
        rcases List.mem_append.mp htm with hmem | hmem
        · exact htk t hmem hurl
        · obtain ⟨it, -, rfl⟩ := List.mem_map.mp hmem
          simp
  | task i =>
    cases ht : s.tasks[i]? with
    | none => simpa [step, ht] using ⟨hv, hl, htk⟩
    | some t =>
      have hdec := tasks_decomp ht
      have htmem : t ∈ s.tasks := by
        rw [hdec]
        exact List.mem_append_right _ (List.mem_cons_self _ _)
      simp only [step, ht]
      obtain ⟨item, phase⟩ := t
      have hsetmem : ∀ (ph : TaskPhase) (t' : Task),
          t' ∈ setTaskAt s.tasks i ⟨item, ph⟩ →
          t' ∈ s.tasks ∨ t' = ⟨item, ph⟩ := by
        intro ph t' hm
        rcases List.mem_append.mp hm with hm | hm
        · left
          rw [hdec]
          exact List.mem_append_left _ hm
        · rcases List.mem_cons.mp hm with hm | hm
          · right; exact hm
          · left
            rw [hdec]
            exact List.mem_append_right _ (List.mem_cons_of_mem _ hm)
      cases phase with
      | admitting =>
        simp only [advanceTask]
        by_cases hc1 : shouldCrawlUrl cfg item.url item.depth = true
        case neg =>
          rw [if_pos hc1]
          refine ⟨hv, hl, ?_⟩
          intro t' htm hurl
          rcases hsetmem _ t' htm with hm | hm
          · exact htk t' hm hurl
          · rw [hm]; simp
        case pos =>
        rw [if_neg (not_not_intro hc1)]
        by_cases hc2 : item.url ∈ s.visited
        case pos =>
          rw [if_pos hc2]
          refine ⟨hv, hl, ?_⟩
          intro t' htm hurl
          rcases hsetmem _ t' htm with hm | hm
          · exact htk t' hm hurl
          · rw [hm]; simp
        case neg =>
          rw [if_neg hc2]
          have hne : ¬ item.url = u := by
            intro he
            rw [he] at hc1
            have hfalse := shouldCrawl_not_excluded cfg u item.depth hc1
            rw [hex] at hfalse
            cases hfalse
          refine ⟨?_, hl, ?_⟩
          · intro hm
            rcases List.mem_append.mp hm with hm | hm
            · exact hv hm
            · rw [List.mem_singleton] at hm
              exact hne hm.symm
          · intro t' htm hurl
            rcases hsetmem _ t' htm with hm | hm
            · exact htk t' hm hurl
            · rw [hm] at hurl
              exact absurd hurl hne
      | fetching =>
        have hne : ¬ item.url = u := by
          intro he
          have hcontra := htk ⟨item, TaskPhase.fetching⟩ htmem he
          simp at hcontra
        simp only [advanceTask]
        refine ⟨hv, ?_, ?_⟩
        · intro hm
          rcases List.mem_append.mp hm with hm | hm
          · exact hl hm
          · rcases fetchPhase_log cfg orc item.url item.referrer item.depth
              item.sourcePages s.visited s.store with hlog | hlog
            · rw [hlog] at hm
              cases hm
            · rw [hlog, List.mem_singleton] at hm
              exact hne hm.symm
        · intro t' htm hurl
          rcases hsetmem _ t' htm with hm | hm
          · exact htk t' hm hurl
          · rw [hm]; simp
      | finishing =>
        simp only [advanceTask]
        refine ⟨hv, hl, ?_⟩
        intro t' htm hurl
        rcases List.mem_append.mp htm with hm | hm
        · refine htk t' ?_ hurl
          rw [hdec]
          exact List.mem_append_left _ hm
        · refine htk t' ?_ hurl
          rw [hdec]
          exact List.mem_append_right _ (List.mem_cons_of_mem _ hm)

/-- Claim C2, amended: a reference whose URL path starts with a
configured exclusion prefix is never claimed into the visited set and
never fetched, at any point of any run — but extraction does write a
stub record for it into the Result Store (see the counterexample), so
"never appears in the Result Store" does not hold. -/
theorem excluded_never_claimed_or_fetched (cfg : Config) (orc : Oracle)
    (cs : List Choice) (u : JSStr) (hex : isUrlExcluded cfg u = true) :
    ¬ u ∈ (runSys cfg orc cs).visited ∧
    ¬ u ∈ (runSys cfg orc cs).fetchLog := by
  have hrun : ¬ u ∈ (runSys cfg orc cs).visited ∧
      ¬ u ∈ (runSys cfg orc cs).fetchLog ∧
      ∀ t ∈ (runSys cfg orc cs).tasks, t.item.url = u →
        ¬ t.phase = TaskPhase.fetching := by
    unfold runSys
    induction cs using List.reverseRecOn with
    | nil =>
      refine ⟨by simp [initSys], by simp [initSys], ?_⟩
      intro t htm
      simp [initSys] at htm
    | append_singleton cs c ih =>
      rw [List.foldl_append, List.foldl_cons, List.foldl_nil]
      exact excluded_inv_step cfg orc _ c u hex ih
  exact ⟨hrun.1, hrun.2.1⟩

/-- Witness for `excluded_never_claimed_or_fetched`. -/
theorem excluded_never_claimed_or_fetched_witness :
    ¬ exclU ∈ (runSys cfgExcl orcExcl csExcl).visited ∧
    ¬ exclU ∈ (runSys cfgExcl orcExcl csExcl).fetchLog :=
  excluded_never_claimed_or_fetched cfgExcl orcExcl csExcl exclU (by decide)

/-- Claim C2, counterexample: a reference whose path starts with a
configured exclusion prefix *does* appear in the Result Store — the
extraction loop stores a stub record for every extracted link before
any admission check, so the excluded URL gets a per-URL hash and an
`all_urls` entry. -/
theorem excluded_stub_stored_counterexample :
    isUrlExcluded cfgExcl exclU = true ∧
    ((checkUrl cfgExcl orcExcl st0 seedItem).store.hashes exclU).isSome
      = true ∧
    exclU ∈ (checkUrl cfgExcl orcExcl st0 seedItem).store.allUrls := by
  decide

theorem toNat_charOfNat_of_valid {m : Nat} (h : m.isValidChar) :
    (Char.ofNat m).toNat = m := by
  unfold Char.ofNat
  rw [dif_pos h]
  unfold Char.ofNatAux
  simp [Char.toNat, UInt32.toNat]

theorem toLower_toNat (c : Char) :
    (65 ≤ c.toNat ∧ c.toNat ≤ 90 ∧ c.toLower.toNat = c.toNat + 32) ∨
    (¬ (65 ≤ c.toNat ∧ c.toNat ≤ 90) ∧ c.toLower = c) := by
  unfold Char.toLower
  by_cases h : 65 ≤ c.toNat ∧ c.toNat ≤ 90
  · left
    refine ⟨h.1, h.2, ?_⟩
    rw [if_pos ⟨h.1, h.2⟩]
    exact toNat_charOfNat_of_valid (Or.inl (by omega))
  · right
    refine ⟨h, ?_⟩
    rw [if_neg ?_]
    intro hc
    exact h ⟨hc.1, hc.2⟩

theorem toLower_toLower (c : Char) : c.toLower.toLower = c.toLower := by
  rcases toLower_toNat c with ⟨h65, h90, heq⟩ | ⟨-, heq⟩
  · rcases toLower_toNat c.toLower with ⟨hge, hle, -⟩ | ⟨-, h2⟩
    · exact absurd hle (by omega)
    · exact h2
  · rw [heq]
    exact heq

theorem map_toLower_idem (l : JSStr) :
    (l.map Char.toLower).map Char.toLower = l.map Char.toLower := by
  rw [List.map_map]
  exact List.map_congr_left fun c _ => toLower_toLower c

theorem toLower_eq_low {c d : Char} (hd : d.toNat < 65)
    (h : c.toLower = d) : c = d := by
  rcases toLower_toNat c with ⟨h65, h90, heq⟩ | ⟨-, heq⟩
  · have h2 := congrArg Char.toNat h
    exact absurd h2 (by omega)
  · rw [← heq, h]

theorem isSchemeChar_toLower {c : Char} (h : isSchemeChar c = true) :
    isSchemeChar c.toLower = true := by
  simp only [isSchemeChar, decide_eq_true_eq] at h ⊢
  rcases toLower_toNat c with ⟨h65, h90, heq⟩ | ⟨-, heq⟩
  · right
    left
    omega
  · rw [heq]
    exact h

theorem splitOnce_scheme_append (scheme rest : JSStr)
    (hs : ∀ c ∈ scheme, ¬ c = ':') :
    splitOnce (("://").toList) (scheme ++ ("://").toList ++ rest)
      = some (scheme, rest) := by
  induction scheme with
  | nil =>
    show splitOnce (("://").toList) ((("://").toList) ++ rest)
      = some ([], rest)
    simp [splitOnce, List.isPrefixOf]
  | cons c cs ih =>
    have hc : ¬ c = ':' := hs c (List.mem_cons_self _ _)
    have ihr := ih fun d hd => hs d (List.mem_cons_of_mem _ hd)
    have hnp : ¬ (("://").toList).isPrefixOf
        (c :: (cs ++ ("://").toList ++ rest)) = true := by
      intro hpre
      rw [List.isPrefixOf_iff_prefix] at hpre
      obtain ⟨t, ht⟩ := hpre
      have hhd := congrArg List.head? ht
      simp at hhd
      exact hc hhd.symm
    show splitOnce (("://").toList)
      (c :: (cs ++ ("://").toList ++ rest)) = _
    unfold splitOnce
    rw [if_neg hnp, ihr]

theorem splitChar_ne_nil (sep : Char) (l : JSStr) :
    ¬ splitChar sep l = [] := by
  induction l with
  | nil => simp [splitChar]
  | cons c cs ih =>
    unfold splitChar
    by_cases h : c = sep
    · simp [h]
    · rw [if_neg h]
      cases hsc : splitChar sep cs with
      | nil => simp
      | cons p ps => simp

theorem mem_splitChar_no_sep (sep : Char) (l : JSStr) :
    ∀ pt ∈ splitChar sep l, ¬ sep ∈ pt := by
  induction l with
  | nil =>
    intro pt hpt
    simp [splitChar] at hpt
    simp [hpt]
  | cons c cs ih =>
    intro pt hpt
    unfold splitChar at hpt
    by_cases h : c = sep
    · rw [if_pos h] at hpt
      rcases List.mem_cons.mp hpt with he | hm
      · simp [he]
      · exact ih pt hm
    · rw [if_neg h] at hpt
      cases hsc : splitChar sep cs with
      | nil => exact absurd hsc (splitChar_ne_nil sep cs)
      | cons p ps =>
        rw [hsc] at hpt
        rcases List.mem_cons.mp hpt with he | hm
        · subst he
          intro hmem
          rcases List.mem_cons.mp hmem with he2 | hm2
          · exact h he2.symm
          · exact ih p (hsc ▸ List.mem_cons_self _ _) hm2
        · exact ih pt (hsc ▸ List.mem_cons_of_mem _ hm)

theorem splitChar_no_sep (sep : Char) (p : JSStr) (h : ¬ sep ∈ p) :
    splitChar sep p = [p] := by
  induction p with
  | nil => rfl
  | cons c cs ih =>
    unfold splitChar
    rw [if_neg ?_, ih ?_]
    · intro hm
      exact h (List.mem_cons_of_mem _ hm)
    · intro he
      exact h (he ▸ List.mem_cons_self _ _)

theorem splitChar_append_sep (sep : Char) (p r : JSStr) (h : ¬ sep ∈ p) :
    splitChar sep (p ++ sep :: r) = p :: splitChar sep r := by
  induction p with
  | nil =>
    show splitChar sep (sep :: r) = _
    simp [splitChar]
  | cons c cs ih =>
    have hcs : ¬ sep ∈ cs := fun hm => h (List.mem_cons_of_mem _ hm)
    have hc : ¬ c = sep := fun he => h (he ▸ List.mem_cons_self _ _)
    show splitChar sep (c :: (cs ++ sep :: r)) = _
    simp only [splitChar]
    rw [if_neg hc, ih hcs]

theorem splitChar_joinChar (sep : Char) :
    ∀ (parts : List JSStr), ¬ parts = [] →
      (∀ pt ∈ parts, ¬ sep ∈ pt) →
      splitChar sep (joinChar sep parts) = parts := by
  intro parts
  induction parts with
  | nil => intro h; exact absurd rfl h
  | cons p ps ih =>
    intro _ hsep
    cases ps with
    | nil =>
      show splitChar sep p = [p]
      exact splitChar_no_sep sep p (hsep p (List.mem_cons_self _ _))
    | cons q qs =>
      show splitChar sep (p ++ sep :: joinChar sep (q :: qs)) = _
      rw [splitChar_append_sep sep p _ (hsep p (List.mem_cons_self _ _)),
        ih (by simp) fun pt hpt => hsep pt (List.mem_cons_of_mem _ hpt)]

theorem mem_joinChar (sep : Char) (parts : List JSStr) (c : Char)
    (h : c ∈ joinChar sep parts) :
    c = sep ∨ ∃ pt ∈ parts, c ∈ pt := by
  induction parts with
  | nil => cases h
  | cons p ps ih =>
    cases ps with
    | nil =>
      right
      exact ⟨p, List.mem_cons_self _ _, h⟩
    | cons q qs =>
      rw [show joinChar sep (p :: q :: qs) = p ++ sep :: joinChar sep (q :: qs)
        from rfl] at h
      rcases List.mem_append.mp h with hm | hm
      · right
        exact ⟨p, List.mem_cons_self _ _, hm⟩
      · rcases List.mem_cons.mp hm with he | hm2
        · left; exact he
        · rcases ih hm2 with he | ⟨pt, hpt, hc⟩
          · left; exact he
          · right
            exact ⟨pt, List.mem_cons_of_mem _ hpt, hc⟩

theorem parse_serializeURL (p : UrlParts) (hv : ValidParts p) :
    parseURL (serializeURL p) = some p := by
  obtain ⟨hs1, hs2, hs3, hh1, hh2, hh3, hp1, hp2, hp3⟩ := hv
  obtain ⟨ptl, hpath⟩ : ∃ ptl, p.path = '/' :: ptl := by
    cases hpc : p.path with
    | nil => exact absurd hpc hp1
    | cons a t =>
      rw [hpc] at hp2
      simp only [List.head?_cons, Option.some.injEq] at hp2
      exact ⟨t, by rw [hp2]⟩
  have hcolon : ∀ c ∈ p.scheme, ¬ c = ':' := by
    intro c hc hcc
    have hsc := hs2 c hc
    rw [hcc] at hsc
    exact absurd hsc (by decide)
  have hall : p.scheme.all isSchemeChar = true := List.all_eq_true.mpr hs2
  have hhostpr : ∀ a ∈ p.host,
      (fun c => ¬ (c = '/' ∨ c = '?') : Char → Bool) a = true := by
    intro a ha
    simpa using hh2 a ha
  have hpathpr : ∀ a ∈ p.path,
      (fun c => ¬ c = '?' : Char → Bool) a = true := by
    intro a ha
    simpa using hp3 a ha
  cases hq : p.query with
  | none =>
    have hser : serializeURL p = p.scheme ++ ("://").toList ++
        (p.host ++ p.path) := by
      unfold serializeURL
      rw [hq]
      simp [List.append_assoc]
    have hsplit : splitOnce (("://").toList) (serializeURL p)
        = some (p.scheme, p.host ++ p.path) := by
      rw [hser]
      exact splitOnce_scheme_append _ _ hcolon
    have htw : (p.host ++ p.path).takeWhile
        (fun c => ¬ (c = '/' ∨ c = '?')) = p.host := by
      rw [List.takeWhile_append_of_pos hhostpr, hpath]
      rw [List.takeWhile_cons_of_neg (by decide)]
      simp
    have hdw : (p.host ++ p.path).dropWhile
        (fun c => ¬ (c = '/' ∨ c = '?')) = p.path := by
      have hcat := List.takeWhile_append_dropWhile
        (fun c => ¬ (c = '/' ∨ c = '?')) (p.host ++ p.path)
      rw [htw] at hcat
      exact List.append_cancel_left hcat
    have htw2 : p.path.takeWhile (fun c => ¬ c = '?') = p.path := by
      rw [List.takeWhile_eq_self_iff]
      exact hpathpr
    have hdw2 : p.path.dropWhile (fun c => ¬ c = '?') = [] := by
      have hcat := List.takeWhile_append_dropWhile
        (fun c => ¬ c = '?') p.path
      rw [htw2] at hcat
      conv_rhs at hcat => rw [show p.path = p.path ++ [] by simp]
      exact List.append_cancel_left hcat
    unfold parseURL
    rw [hsplit]
    simp only [if_neg hs1, hall, htw, hdw, htw2, hdw2, if_neg hh1, hs3, hh3]
    rw [if_neg hp1, ← hq]
    simp
  | some q =>
    have hser : serializeURL p = p.scheme ++ ("://").toList ++
        (p.host ++ (p.path ++ '?' :: q)) := by
      unfold serializeURL
      rw [hq]
      simp [List.append_assoc]
    have hsplit : splitOnce (("://").toList) (serializeURL p)
        = some (p.scheme, p.host ++ (p.path ++ '?' :: q)) := by
      rw [hser]
      exact splitOnce_scheme_append _ _ hcolon
    have htw : (p.host ++ (p.path ++ '?' :: q)).takeWhile
        (fun c => ¬ (c = '/' ∨ c = '?')) = p.host := by
      rw [List.takeWhile_append_of_pos hhostpr, hpath]
      rw [show ('/' :: ptl) ++ '?' :: q = '/' :: (ptl ++ '?' :: q)
        from rfl]
      rw [List.takeWhile_cons_of_neg (by decide)]
      simp
    have hdw : (p.host ++ (p.path ++ '?' :: q)).dropWhile
        (fun c => ¬ (c = '/' ∨ c = '?')) = p.path ++ '?' :: q := by
      have hcat := List.takeWhile_append_dropWhile
        (fun c => ¬ (c = '/' ∨ c = '?')) (p.host ++ (p.path ++ '?' :: q))
      rw [htw] at hcat
      exact List.append_cancel_left hcat
    have htw2 : (p.path ++ '?' :: q).takeWhile (fun c => ¬ c = '?')
        = p.path := by
      rw [List.takeWhile_append_of_pos hpathpr]
      rw [List.takeWhile_cons_of_neg (by decide)]
      simp
    have hdw2 : (p.path ++ '?' :: q).dropWhile (fun c => ¬ c = '?')
        = '?' :: q := by
      have hcat := List.takeWhile_append_dropWhile
        (fun c => ¬ c = '?') (p.path ++ '?' :: q)
      rw [htw2] at hcat
      exact List.append_cancel_left hcat
    unfold parseURL
    rw [hsplit]
    simp only [if_neg hs1, hall, htw, hdw, htw2, hdw2, if_neg hh1, hs3, hh3]
    rw [if_neg hp1, ← hq]
    simp

theorem parseURL_valid {s : JSStr} {p : UrlParts}
    (h : parseURL s = some p) : ValidParts p := by
  unfold parseURL at h
  cases hsp : splitOnce (("://").toList) s with
  | none =>
    rw [hsp] at h
    cases h
  | some pr =>
    obtain ⟨schemeRaw, rest⟩ := pr
    rw [hsp] at h
    simp only at h
    by_cases h1 : schemeRaw = []
    · rw [if_pos h1] at h
      cases h
    rw [if_neg h1] at h
    by_cases h2 : schemeRaw.all isSchemeChar = true
    case neg =>
      rw [if_pos h2] at h
      cases h
    rw [if_neg (not_not_intro h2)] at h
    by_cases h3 : rest.takeWhile (fun c => ¬ (c = '/' ∨ c = '?')) = []
    · rw [if_pos h3] at h
      cases h
    rw [if_neg h3] at h
    have hall := List.all_eq_true.mp h2
    have hp := (Option.some.inj h).symm
    subst hp
    by_cases hnil : ((rest.dropWhile
        (fun c => ¬ (c = '/' ∨ c = '?'))).takeWhile
        (fun c => ¬ c = '?')) = []
    all_goals refine ⟨?_, ?_, map_toLower_idem _, ?_, ?_,
      map_toLower_idem _, ?_, ?_, ?_⟩
    · simp only [List.map_eq_nil_iff]
      exact h1
    · intro c hc
      obtain ⟨c₀, hc₀, rfl⟩ := List.mem_map.mp hc
      exact isSchemeChar_toLower (hall c₀ hc₀)
    · simp only [List.map_eq_nil_iff]
      exact h3
    · intro c hc
      obtain ⟨c₀, hc₀, rfl⟩ := List.mem_map.mp hc
      have hpr := List.mem_takeWhile_imp hc₀
      simp only [decide_eq_true_eq] at hpr
      rintro (he | he)
      · exact hpr (Or.inl (toLower_eq_low (by decide) he))
      · exact hpr (Or.inr (toLower_eq_low (by decide) he))
    · show ¬ (if _ = [] then _ else _) = []
      rw [if_pos hnil]
      simp
    · show List.head? (if _ = [] then _ else _) = some '/'
      rw [if_pos hnil]
      rfl
    · show ∀ c ∈ (if _ = [] then _ else _), ¬ c = '?'
      rw [if_pos hnil]
      intro c hc
      rw [List.mem_singleton] at hc
      rw [hc]
      decide
    · simp only [List.map_eq_nil_iff]
      exact h1
    · intro c hc
      obtain ⟨c₀, hc₀, rfl⟩ := List.mem_map.mp hc
      exact isSchemeChar_toLower (hall c₀ hc₀)
    · simp only [List.map_eq_nil_iff]
      exact h3
    · intro c hc
      obtain ⟨c₀, hc₀, rfl⟩ := List.mem_map.mp hc
      have hpr := List.mem_takeWhile_imp hc₀
      simp only [decide_eq_true_eq] at hpr
      rintro (he | he)
      · exact hpr (Or.inl (toLower_eq_low (by decide) he))
      · exact hpr (Or.inr (toLower_eq_low (by decide) he))
    · show ¬ (if _ = [] then _ else _) = []
      rw [if_neg hnil]
      exact hnil
    · show List.head? (if _ = [] then _ else _) = some '/'
      rw [if_neg hnil]
      cases hah : rest.dropWhile (fun c => ¬ (c = '/' ∨ c = '?')) with
      | nil =>
        rw [hah] at hnil
        simp at hnil
      | cons a t =>
        have hnp := List.head?_dropWhile_not
          (fun c => ¬ (c = '/' ∨ c = '?')) rest
        rw [hah] at hnp
        have hor : a = '/' ∨ a = '?' := by
          by_contra hcon
          push_neg at hcon
          simp [hcon.1, hcon.2] at hnp
        by_cases ha : a = '?'
        · rw [hah] at hnil
          rw [List.takeWhile_cons_of_neg (by simp [ha])] at hnil
          exact absurd rfl hnil
        · rw [List.takeWhile_cons_of_pos (by simpa using ha)]
          rcases hor with hsl | hqm
          · simp [hsl]
          · exact absurd hqm ha
    · show ∀ c ∈ (if _ = [] then _ else _), ¬ c = '?'
      rw [if_neg hnil]
      intro c hc
      have hpr := List.mem_takeWhile_imp hc
      simpa using hpr

theorem deleteUtm_valid {p : UrlParts} (hv : ValidParts p) :
    ValidParts (deleteUtm p) := hv

theorem deleteUtm_cleanQuery (p : UrlParts) :
    CleanQuery (deleteUtm p).query := by
  unfold deleteUtm
  cases hq : p.query with
  | none => trivial
  | some q =>
    simp only
    cases hdq : deleteUtmQuery q with
    | none => trivial
    | some qs =>
      unfold deleteUtmQuery at hdq
      simp only at hdq
      cases hk : ((splitChar '&' q).filter fun pt => ¬ pt = []).filter
          (fun pt => ¬ paramKey pt ∈ utmParams) with
      | nil =>
        rw [hk] at hdq
        cases hdq
      | cons k ks =>
        rw [hk] at hdq
        refine ⟨k :: ks, by simp, ?_, (Option.some.inj hdq).symm⟩
        intro pt hpt
        have h1 := hk ▸ hpt
        have h2 := List.mem_filter.mp h1
        have h3 := List.mem_filter.mp h2.1
        refine ⟨by simpa using h3.2, ?_, by simpa using h2.2⟩
        exact mem_splitChar_no_sep '&' q pt h3.1

theorem deleteUtm_of_clean {p : UrlParts} (hc : CleanQuery p.query) :
    deleteUtm p = p := by
  obtain ⟨psc, pho, ppa, pqu⟩ := p
  unfold deleteUtm
  cases pqu with
  | none => rfl
  | some qs =>
    simp only
    obtain ⟨kept, hk1, hk2, hk3⟩ := hc
    unfold deleteUtmQuery
    have hsj : splitChar '&' qs = kept := by
      rw [hk3]
      exact splitChar_joinChar '&' kept hk1 fun pt hpt => (hk2 pt hpt).2.1
    rw [hsj]
    have hf1 : kept.filter (fun pt => ¬ pt = []) = kept := by
      rw [List.filter_eq_self]
      intro pt hpt
      simpa using (hk2 pt hpt).1
    rw [hf1]
    have hf2 : kept.filter (fun pt => ¬ paramKey pt ∈ utmParams) = kept := by
      rw [List.filter_eq_self]
      intro pt hpt
      simpa using (hk2 pt hpt).2.2
    cases hke : kept with
    | nil => exact absurd hke hk1
    | cons k ks =>
      subst hke
      simp only [hf2]
      rw [← hk3]

theorem mem_of_mem_takeWhile {p : Char → Bool} {l : JSStr} {c : Char}
    (h : c ∈ l.takeWhile p) : c ∈ l := by
  induction l with
  | nil => cases h
  | cons a t ih =>
    rw [List.takeWhile_cons] at h
    by_cases hp : p a = true
    · rw [if_pos hp] at h
      rcases List.mem_cons.mp h with he | hm
      · exact he ▸ List.mem_cons_self _ _
      · exact List.mem_cons_of_mem _ (ih hm)
    · rw [if_neg hp] at h
      cases h

theorem mem_of_mem_dropWhile {p : Char → Bool} {l : JSStr} {c : Char}
    (h : c ∈ l.dropWhile p) : c ∈ l := by
  induction l with
  | nil => cases h
  | cons a t ih =>
    rw [List.dropWhile_cons] at h
    by_cases hp : p a = true
    · rw [if_pos hp] at h
      exact List.mem_cons_of_mem _ (ih h)
    · rw [if_neg hp] at h
      exact h

theorem splitOnce_subsets (sep : JSStr) :
    ∀ (s pre post : JSStr), splitOnce sep s = some (pre, post) →
      (∀ c ∈ pre, c ∈ s) ∧ (∀ c ∈ post, c ∈ s) := by
  intro s
  induction s with
  | nil => intro pre post h; cases h
  | cons a t ih =>
    intro pre post h
    unfold splitOnce at h
    by_cases hp : sep.isPrefixOf (a :: t) = true
    · rw [if_pos hp] at h
      obtain ⟨he1, he2⟩ := Prod.mk.injEq .. ▸ Option.some.inj h
      constructor
      · intro c hc
        rw [← he1] at hc
        cases hc
      · intro c hc
        rw [← he2] at hc
        exact List.drop_subset _ _ hc
    · rw [if_neg hp] at h
      cases hre : splitOnce sep t with
      | none =>
        rw [hre] at h
        cases h
      | some pr =>
        obtain ⟨p1, p2⟩ := pr
        rw [hre] at h
        obtain ⟨he1, he2⟩ := Prod.mk.injEq .. ▸ Option.some.inj h
        obtain ⟨ih1, ih2⟩ := ih p1 p2 hre
        constructor
        · intro c hc
          rw [← he1] at hc
          rcases List.mem_cons.mp hc with he | hm
          · exact he ▸ List.mem_cons_self _ _
          · exact List.mem_cons_of_mem _ (ih1 c hm)
        · intro c hc
          rw [← he2] at hc
          exact List.mem_cons_of_mem _ (ih2 c hc)

theorem mem_splitChar_subset (sep : Char) :
    ∀ (l : JSStr) (pt : JSStr), pt ∈ splitChar sep l → ∀ c ∈ pt, c ∈ l := by
  intro l
  induction l with
  | nil =>
    intro pt hpt c hc
    simp [splitChar] at hpt
    rw [hpt] at hc
    cases hc
  | cons a t ih =>
    intro pt hpt c hc
    unfold splitChar at hpt
    by_cases hs : a = sep
    · rw [if_pos hs] at hpt
      rcases List.mem_cons.mp hpt with he | hm
      · rw [he] at hc
        cases hc
      · exact List.mem_cons_of_mem _ (ih pt hm c hc)
    · rw [if_neg hs] at hpt
      cases hsc : splitChar sep t with
      | nil => exact absurd hsc (splitChar_ne_nil sep t)
      | cons p ps =>
        rw [hsc] at hpt
        rcases List.mem_cons.mp hpt with he | hm
        · rw [he] at hc
          rcases List.mem_cons.mp hc with he2 | hm2
          · exact he2 ▸ List.mem_cons_self _ _
          · exact List.mem_cons_of_mem _
              (ih p (hsc ▸ List.mem_cons_self _ _) c hm2)
        · exact List.mem_cons_of_mem _
            (ih pt (hsc ▸ List.mem_cons_of_mem _ hm) c hc)

theorem toLower_ne_hash {c : Char} (h : ¬ c = '#') :
    ¬ Char.toLower c = '#' := by
  intro he
  exact h (toLower_eq_low (by decide) he)

theorem parseURL_components {s : JSStr} {p : UrlParts}
    (h : parseURL s = some p) :
    (∀ c ∈ p.scheme, ∃ c₀, c₀ ∈ s ∧ c = Char.toLower c₀) ∧
    (∀ c ∈ p.host, ∃ c₀, c₀ ∈ s ∧ c = Char.toLower c₀) ∧
    (∀ c ∈ p.path, c ∈ s ∨ c = '/') ∧
    (∀ q, p.query = some q → ∀ c ∈ q, c ∈ s) := by
  unfold parseURL at h
  cases hsp : splitOnce (("://").toList) s with
  | none =>
    rw [hsp] at h
    cases h
  | some pr =>
    obtain ⟨schemeRaw, rest⟩ := pr
    rw [hsp] at h
    simp only at h
    obtain ⟨hsub1, hsub2⟩ := splitOnce_subsets _ s schemeRaw rest hsp
    by_cases h1 : schemeRaw = []
    · rw [if_pos h1] at h
      cases h
    rw [if_neg h1] at h
    by_cases h2 : schemeRaw.all isSchemeChar = true
    case neg =>
      rw [if_pos h2] at h
      cases h
    rw [if_neg (not_not_intro h2)] at h
    by_cases h3 : rest.takeWhile (fun c => ¬ (c = '/' ∨ c = '?')) = []
    · rw [if_pos h3] at h
      cases h
    rw [if_neg h3] at h
    have hp := (Option.some.inj h).symm
    subst hp
    refine ⟨?_, ?_, ?_, ?_⟩
    · intro c hc
      obtain ⟨c₀, hc₀, rfl⟩ := List.mem_map.mp hc
      exact ⟨c₀, hsub1 c₀ hc₀, rfl⟩
    · intro c hc
      obtain ⟨c₀, hc₀, rfl⟩ := List.mem_map.mp hc
      exact ⟨c₀, hsub2 c₀ (mem_of_mem_takeWhile hc₀), rfl⟩
    · show ∀ c ∈ (if _ = [] then _ else _), c ∈ s ∨ c = '/'
      by_cases hnil : ((rest.dropWhile
          (fun c => ¬ (c = '/' ∨ c = '?'))).takeWhile
          (fun c => ¬ c = '?')) = []
      · rw [if_pos hnil]
        intro c hc
        rw [List.mem_singleton] at hc
        right
        exact hc
      · rw [if_neg hnil]
        intro c hc
        left
        exact hsub2 c (mem_of_mem_dropWhile (mem_of_mem_takeWhile hc))
    · intro q hq c hc
      revert hq
      cases hdr : ((rest.dropWhile
          (fun c => ¬ (c = '/' ∨ c = '?'))).dropWhile
          (fun c => ¬ c = '?')) with
      | nil =>
        intro hq
        exact Option.noConfusion hq
      | cons d qs =>
        intro hq
        have hqq : qs = q := Option.some.inj hq
        subst hqq
        have hmem : c ∈ d :: qs := List.mem_cons_of_mem _ hc
        rw [← hdr] at hmem
        exact hsub2 c
          (mem_of_mem_dropWhile (mem_of_mem_dropWhile hmem))

theorem serialize_deleteUtm_no_hash {s : JSStr} {p : UrlParts}
    (hs : ∀ c ∈ s, ¬ c = '#') (h : parseURL s = some p) :
    ∀ c ∈ serializeURL (deleteUtm p), ¬ c = '#' := by
  obtain ⟨hsch, hhost, hpath, hquery⟩ := parseURL_components h
  intro c hc
  unfold serializeURL at hc
  simp only [List.mem_append] at hc
  rcases hc with ((((hc | hc) | hc) | hc) | hc)
  · obtain ⟨c₀, hc₀, rfl⟩ := hsch c hc
    exact toLower_ne_hash (hs c₀ hc₀)
  · intro he
    rw [he] at hc
    exact absurd hc (by decide)
  · obtain ⟨c₀, hc₀, rfl⟩ := hhost c hc
    exact toLower_ne_hash (hs c₀ hc₀)
  · rcases hpath c hc with hm | he
    · exact hs c hm
    · rw [he]
      decide
  · revert hc
    unfold deleteUtm
    cases hq : p.query with
    | none =>
      intro hc
      cases hc
    | some q =>
      simp only
      cases hdq : deleteUtmQuery q with
      | none =>
        intro hc
        cases hc
      | some qs =>
        intro hc
        rcases List.mem_cons.mp hc with he | hm
        · rw [he]
          decide
        · unfold deleteUtmQuery at hdq
          simp only at hdq
          cases hk : ((splitChar '&' q).filter fun pt => ¬ pt = []).filter
              (fun pt => ¬ paramKey pt ∈ utmParams) with
          | nil =>
            rw [hk] at hdq
            cases hdq
          | cons k ks =>
            rw [hk] at hdq
            have hqs := (Option.some.inj hdq).symm
            subst hqs
            rcases mem_joinChar '&' (k :: ks) c hm with he | ⟨pt, hpt, hcpt⟩
            · rw [he]
              decide
            · have h1 := hk ▸ hpt
              have h2 := (List.mem_filter.mp (List.mem_filter.mp h1).1).1
              have hcq := mem_splitChar_subset '&' q pt h2 c hcpt
              exact hs c (hquery q hq c hcq)

theorem startsWith_http_shape {v : JSStr}
    (h : jsStartsWith v (("http").toList) = true) :
    jsStartsWith v (("//").toList) = false ∧
    jsStartsWith v (("/").toList) = false := by
  cases v with
  | nil => exact absurd h (by decide)
  | cons c cs =>
    have h2 : (('h' == c) && List.isPrefixOf (("ttp").toList) cs) = true := h
    have hc : c = 'h' := by
      have h3 := h2
      simp only [Bool.and_eq_true, beq_iff_eq] at h3
      exact h3.1.symm
    subst hc
    constructor
    · show (('/' == 'h') && List.isPrefixOf (("/").toList) cs) = false
      rw [show (('/' == 'h') : Bool) = false from by decide, Bool.false_and]
    · show (('/' == 'h') && List.isPrefixOf ([] : JSStr) cs) = false
      rw [show (('/' == 'h') : Bool) = false from by decide, Bool.false_and]

theorem normalize_tail_parse (t r : JSStr)
    (hr : (match parseURL (t.takeWhile fun c => ¬ c = '#') with
           | some p => serializeURL (deleteUtm p)
           | none => t.takeWhile fun c => ¬ c = '#') = r) :
    (∀ c ∈ r, ¬ c = '#') ∧
    (parseURL r = none ∨
     ∃ p, parseURL r = some p ∧ serializeURL (deleteUtm p) = r) := by
  have hth : ∀ c ∈ t.takeWhile fun c => ¬ c = '#', ¬ c = '#' := by
    intro c hc
    have hm := List.mem_takeWhile_imp hc
    simpa using hm
  revert hr
  cases hp : parseURL (t.takeWhile fun c => ¬ c = '#') with
  | none =>
    intro hr
    subst hr
    exact ⟨hth, Or.inl hp⟩
  | some p =>
    intro hr
    subst hr
    have hvalid : ValidParts (deleteUtm p) :=
      deleteUtm_valid (parseURL_valid hp)
    have hclean : CleanQuery (deleteUtm p).query := deleteUtm_cleanQuery p
    have hparse2 : parseURL (serializeURL (deleteUtm p)) = some (deleteUtm p) :=
      parse_serializeURL _ hvalid
    refine ⟨serialize_deleteUtm_no_hash hth hp,
      Or.inr ⟨deleteUtm p, hparse2, ?_⟩⟩
    rw [deleteUtm_of_clean hclean]

theorem normalizeUrl_parse (cfg : Config) (u b : JSStr) :
    (∀ c ∈ normalizeUrl cfg u b, ¬ c = '#') ∧
    (parseURL (normalizeUrl cfg u b) = none ∨
     ∃ p, parseURL (normalizeUrl cfg u b) = some p ∧
       serializeURL (deleteUtm p) = normalizeUrl cfg u b) :=
  normalize_tail_parse _ _ rfl

/-- C3: amended idempotence.  `normalizeUrl` is idempotent on every input
whose normalised form starts with `http` and does not end with `/`: a
second pass performs no protocol-relative or relative rewriting, strips
no trailing slash, finds no fragment, and the URL round-trips through
the parse/utm-delete/serialise stage unchanged because the first pass
already removed every `utm_*` parameter. -/
theorem normalizeUrl_idempotent_on_canonical (cfg : Config) (u b : JSStr)
    (h1 : jsStartsWith (normalizeUrl cfg u b) (("http").toList) = true)
    (h2 : jsEndsWith (normalizeUrl cfg u b) (("/").toList) = false) :
    normalizeUrl cfg (normalizeUrl cfg u b) b = normalizeUrl cfg u b := by
  obtain ⟨hnh, hparse⟩ := normalizeUrl_parse cfg u b
  obtain ⟨hs2, hs1⟩ := startsWith_http_shape h1
  revert h1 h2 hnh hparse hs2 hs1
  generalize normalizeUrl cfg u b = v
  intro h1 h2 hnh hparse hs2 hs1
  have ht : v.takeWhile (fun c => ¬ c = '#') = v := by
    rw [List.takeWhile_eq_self_iff]
    intro a ha
    simpa using hnh a ha
  unfold normalizeUrl
  simp only [hs2, hs1, h1, h2, Bool.false_eq_true, eq_self_iff_true,
    not_true, if_false, if_true, ht]
  rcases hparse with hnone | ⟨p, hp, hser⟩
  · simp only [hnone]
  · simp only [hp]
    exact hser

/-- Witness for the amended C3 theorem at the concrete input
`https://ex.com/a?x=1`: the hypotheses hold and a second normalisation
pass is the identity. -/
theorem normalizeUrl_idempotent_on_canonical_witness :
    jsStartsWith (normalizeUrl cfgEx (("https://ex.com/a?x=1").toList) seedU)
        (("http").toList) = true ∧
    jsEndsWith (normalizeUrl cfgEx (("https://ex.com/a?x=1").toList) seedU)
        (("/").toList) = false ∧
    normalizeUrl cfgEx
        (normalizeUrl cfgEx (("https://ex.com/a?x=1").toList) seedU) seedU
      = normalizeUrl cfgEx (("https://ex.com/a?x=1").toList) seedU :=
  ⟨by decide, by decide,
   normalizeUrl_idempotent_on_canonical cfgEx
     (("https://ex.com/a?x=1").toList) seedU (by decide) (by decide)⟩

end Crawler
